import Mathlib

set_option linter.unusedVariables false

/-! Verification of the Koala maximum-matching core
    (src/include/matching/MaximumMatching.hpp).

    The repository ships the header only, so the bodies of the blossom
    algorithms are modelled from the accompanying specification; every
    definition whose body is not visible in the header carries a doc
    comment starting with "Modelled from the spec:" naming the missing
    code.  Machine integers (NetworKit edgeweight, node, edgeid) are
    modelled as Int and Nat. -/

/-- Labels of root blossoms in the alternating forest
    (BlossomMaximumMatching::BlossomLabel, header line 69). -/
inductive BlossomLabel where
  | even
  | odd
  | free
deriving DecidableEq, Repr

def BlossomLabel.isEven : BlossomLabel → Bool
  | .even => true
  | _ => false

def BlossomLabel.isOdd : BlossomLabel → Bool
  | .odd => true
  | _ => false

def BlossomLabel.isFree : BlossomLabel → Bool
  | .free => true
  | _ => false

/-- Edge description used by the driver
    (BlossomMaximumMatching::EdgeInfo, header lines 62-65):
    the two endpoints and the edge id. -/
structure EdgeInfo where
  u : Nat
  v : Nat
  id : Nat
deriving DecidableEq, Repr

/-- Modelled from the spec (section 3, Blossom B; the bodies of class
    Blossom are not in the header): one node of the laminar blossom
    forest, flattened to its member set, base node, dual variable z,
    label, root flag, triviality flag and the edge by which it was
    labeled.  Sub-blossom cyclic order is kept only through the member
    list, which is what the dual bookkeeping needs. -/
structure Blossom where
  members : List Nat
  base : Nat
  z : Int
  label : BlossomLabel
  isRoot : Bool
  isTrivial : Bool
  backtrackEdge : Option EdgeInfo
deriving DecidableEq, Repr

instance : Inhabited Blossom :=
  ⟨⟨[], 0, 0, .free, false, true, none⟩⟩

/-- Modelled from the spec (sections 3 and 4.D; the driver state of
    BlossomMaximumMatching is declared in header lines 104-108 but its
    manipulation is not): number of nodes, the edge table graph_edges
    (endpoints and internally doubled integer weight), the node dual
    variables u, the blossom forest, and the is_in_matching bit per
    edge id. -/
structure DState where
  n : Nat
  edges : List (Nat × Nat × Int)
  u : List Int
  blossoms : List Blossom
  is_in_matching : List Bool
deriving DecidableEq, Repr

/-- Dual variable of a node, defaulting to 0 out of range. -/
def uAt (s : DState) (v : Nat) : Int :=
  s.u.getD v 0

/-- Edge table lookup, defaulting to a dummy edge out of range. -/
def edgeAt (s : DState) (i : Nat) : Nat × Nat × Int :=
  s.edges.getD i (0, 0, 0)

/-- The is_in_matching bit of an edge id. -/
def matchedAt (s : DState) (i : Nat) : Bool :=
  s.is_in_matching.getD i false


/-- Minimum of a list of integers, none for the empty list. -/
def minOpt : List Int → Option Int
  | [] => none
  | x :: xs =>
    match minOpt xs with
    | none => some x
    | some m => some (min x m)

/-- Maximum of a list of integers, none for the empty list. -/
def maxOpt : List Int → Option Int
  | [] => none
  | x :: xs =>
    match maxOpt xs with
    | none => some x
    | some m => some (max x m)

/-- Projection of a blossom to the data its dual contribution depends on:
    member list and dual variable z. -/
def projB (B : Blossom) : List Nat × Int :=
  (B.members, B.z)

/-- Sum of the z duals of the records containing both a and b. -/
def zps (a b : Nat) (l : List (List Nat × Int)) : Int :=
  (l.map (fun p => if a ∈ p.1 ∧ b ∈ p.1 then p.2 else 0)).sum

/-- Sum of the blossom duals z over all blossoms containing both
    endpoints a and b (the blossom term of the edge slack, spec
    section 3 invariant 4). -/
def zPairSum (s : DState) (a b : Nat) : Int :=
  zps a b (s.blossoms.map projB)

/-- Index of the first root blossom containing v in a blossom list. -/
def rootOfAux (v : Nat) : List Blossom → Option Nat
  | [] => none
  | B :: rest =>
    if B.isRoot = true ∧ v ∈ B.members then some 0
    else (rootOfAux v rest).map (· + 1)

/-- Modelled from the spec (get_blossom, header line 169; body absent):
    the index of the root blossom containing a vertex. -/
def get_blossom (s : DState) (v : Nat) : Option Nat :=
  rootOfAux v s.blossoms

/-- Blossom record lookup by index. -/
def blossomAt (s : DState) (i : Nat) : Blossom :=
  s.blossoms.getD i default

/-- Label of the root blossom a node belongs to; nodes outside every
    root blossom count as free. -/
def nodeLabel (s : DState) (v : Nat) : BlossomLabel :=
  match get_blossom s v with
  | some i => (blossomAt s i).label
  | none => .free

/-- Modelled from the spec (glossary Slack, section 3 invariant 4;
    GabowMaximumMatching::edge_slack, header line 283, body absent):
    slack of edge i is u_a + u_b + the z sum over blossoms containing
    both endpoints, minus the edge weight. -/
def edge_slack (s : DState) (i : Nat) : Int :=
  uAt s (edgeAt s i).1 + uAt s (edgeAt s i).2.1
    + zPairSum s (edgeAt s i).1 (edgeAt s i).2.1 - (edgeAt s i).2.2

/-- Modelled from the spec (section 4.D dual updates): the new node
    dual list after applying delta d; the label of each node is the
    label of its root blossom in the state before the update. -/
def adjustU (s : DState) (d : Int) : List Int :=
  (List.range s.n).map (fun v =>
    match nodeLabel s v with
    | .even => uAt s v - d
    | .odd => uAt s v + d
    | .free => uAt s v)

/-- Modelled from the spec (section 4.D dual updates): the per-blossom
    part of a dual adjustment; only root blossoms change, even roots
    gain 2d and odd roots lose 2d on the dual z. -/
def adjustBlossom (d : Int) (B : Blossom) : Blossom :=
  if B.isRoot then
    match B.label with
    | .even => { B with z := B.z + 2 * d }
    | .odd => { B with z := B.z - 2 * d }
    | .free => B
  else B

/-- Modelled from the spec (adjust_by_delta, header lines 156 and 214,
    bodies absent; spec section 4.D): apply the dual adjustment delta d
    to every node dual and every root blossom dual. -/
def adjust_by_delta (s : DState) (d : Int) : DState :=
  { s with u := adjustU s d, blossoms := s.blossoms.map (adjustBlossom d) }

/-- Modelled from the spec (calc_delta1, header line 151, body absent;
    spec: delta1 is the minimum of u_v over even nodes v). -/
def calc_delta1 (s : DState) : Option Int :=
  minOpt (((List.range s.n).filter (fun v => (nodeLabel s v).isEven)).map (uAt s))

/-- Whether edge i has exactly one even endpoint. -/
def exactlyOneEven (s : DState) (i : Nat) : Bool :=
  (nodeLabel s (edgeAt s i).1).isEven != (nodeLabel s (edgeAt s i).2.1).isEven

/-- Modelled from the spec (calc_delta2, header line 152, body absent;
    spec: delta2 is the minimum slack over edges with exactly one even
    endpoint). -/
def calc_delta2 (s : DState) : Option Int :=
  minOpt (((List.range s.edges.length).filter (exactlyOneEven s)).map (edge_slack s))

/-- Whether both endpoints of edge i are even and in distinct root
    blossoms. -/
def bothEvenDiffRoot (s : DState) (i : Nat) : Bool :=
  (nodeLabel s (edgeAt s i).1).isEven && (nodeLabel s (edgeAt s i).2.1).isEven
    && decide (get_blossom s (edgeAt s i).1 ≠ get_blossom s (edgeAt s i).2.1)

/-- Modelled from the spec (calc_delta3, header line 153, body absent;
    spec: delta3 is half the minimum slack over edges whose endpoints
    lie in distinct even blossoms). -/
def calc_delta3 (s : DState) : Option Int :=
  minOpt (((List.range s.edges.length).filter (bothEvenDiffRoot s)).map
    (fun i => edge_slack s i / 2))

/-- Modelled from the spec (calc_delta4, header line 154, body absent;
    spec: delta4 is the minimum of z_B / 2 over odd non-trivial root
    blossoms). -/
def calc_delta4 (s : DState) : Option Int :=
  minOpt ((s.blossoms.filter
    (fun B => B.isRoot && B.label.isOdd && !B.isTrivial)).map (fun B => B.z / 2))

/-- The entries contributed by an optional delta candidate. -/
def optToList : Option Int → List Int
  | none => []
  | some x => [x]

/-- Modelled from the spec (adjust_dual_variables, header line 149, body
    absent; spec section 4.D: delta is the minimum of the available
    delta1..delta4 candidates). -/
def calc_delta (s : DState) : Option Int :=
  minOpt (optToList (calc_delta1 s) ++ optToList (calc_delta2 s)
    ++ optToList (calc_delta3 s) ++ optToList (calc_delta4 s))

/-- A concrete two-node state used to instantiate theorems. -/
def egState : DState :=
  { n := 2, edges := [(0, 1, 2)], u := [1, 1],
    blossoms := [⟨[0], 0, 0, .even, true, true, none⟩,
                 ⟨[1], 1, 0, .even, true, true, none⟩],
    is_in_matching := [false] }

/-- Raw input graph as provided by the NetworKit collaborator: node
    count and an edge list with endpoints and a real-valued weight
    (NetworKit edgeweight is a double, modelled as a rational). -/
structure InputGraph where
  n : Nat
  edges : List (Nat × Nat × Rat)
deriving DecidableEq

/-- Error kinds of the core (spec section 7). -/
inductive MatchingError where
  | invalidGraph
deriving DecidableEq, Repr

/-- Whether the input graph contains a self-loop. -/
def hasSelfLoop (g : InputGraph) : Bool :=
  g.edges.any (fun e => e.1 == e.2.1)

/-- Whether the input graph contains a non-integer or negative weight. -/
def hasBadWeight (g : InputGraph) : Bool :=
  g.edges.any (fun e => decide (e.2.2.den ≠ 1) || decide (e.2.2 < 0))

/-- Validated internal graph: integer weights, doubled internally so
    that delta3 stays integral (spec section 6, weight scaling). -/
structure WGraph where
  n : Nat
  edges : List (Nat × Nat × Int)
deriving DecidableEq, Repr

/-- The internal graph built from a validated input graph. -/
def prepGraph (g : InputGraph) : WGraph :=
  { n := g.n, edges := g.edges.map (fun e => (e.1, e.2.1, 2 * e.2.2.num)) }

/-- Modelled from the spec (the constructors MaximumMatching, header
    line 32, and BlossomMaximumMatching, header line 52, have no body in
    the header; spec section 7, InvalidGraph): construction fails with
    InvalidGraph iff the graph has a self-loop or, in the weighted
    variant, a non-integer or negative edge weight; otherwise it yields
    the prepared internal graph. -/
def constructMatcher (weighted : Bool) (g : InputGraph) :
    Except MatchingError WGraph :=
  if hasSelfLoop g || (weighted && hasBadWeight g) then .error .invalidGraph
  else .ok (prepGraph g)

/-- Modelled from the spec (section 5 resource model; run bodies are
    absent) together with the header member declaration of the graph at
    lines 42 and 398, which holds the graph by value: the world visible
    around a matcher, separating the graph object owned by the caller
    from the copy stored inside the matcher. -/
structure MatcherWorld where
  callerGraph : InputGraph
  storedGraph : InputGraph

/-- Construction stores a copy of the caller graph in the matcher
    (the member is held by value although the constructor receives a
    reference). -/
def constructWorld (g : InputGraph) : MatcherWorld :=
  { callerGraph := g, storedGraph := g }

/-- Modelled from the spec (section 5: all data structures are process
    local and mutated in place by the driver): run applies its updates,
    abstracted as the function mutate, to the stored member graph only. -/
def runWorld (mutate : InputGraph → InputGraph) (w : MatcherWorld) : MatcherWorld :=
  { callerGraph := w.callerGraph, storedGraph := mutate w.storedGraph }

/-- Structural wellformedness of a driver state: length bookkeeping,
    edge sanity (endpoints in range, no self-loops, nonnegative doubled
    weights), the laminar root partition (spec section 3 invariant 1:
    every node is contained in exactly one root blossom), no duplicate
    members inside a blossom, and the triviality flag meaning a single
    member. -/
def WFState (s : DState) : Prop :=
  s.u.length = s.n ∧
  s.is_in_matching.length = s.edges.length ∧
  (∀ e ∈ s.edges, e.1 < s.n ∧ e.2.1 < s.n ∧ e.1 ≠ e.2.1 ∧ 0 ≤ e.2.2) ∧
  (∀ v, v < s.n → ∃ i, i < s.blossoms.length ∧
    (blossomAt s i).isRoot = true ∧ v ∈ (blossomAt s i).members) ∧
  (∀ i j, i < s.blossoms.length → j < s.blossoms.length → i ≠ j →
    (blossomAt s i).isRoot = true → (blossomAt s j).isRoot = true →
    ∀ v ∈ (blossomAt s i).members, v ∉ (blossomAt s j).members) ∧
  (∀ B ∈ s.blossoms, B.members.Nodup) ∧
  (∀ B ∈ s.blossoms, B.isTrivial = true ↔ B.members.length < 2)

/-- Dual feasibility (spec section 3 invariant 4): every edge has
    nonnegative slack. -/
def DualFeasible (s : DState) : Prop :=
  ∀ i, i < s.edges.length → 0 ≤ edge_slack s i

/-- Complementary slackness (spec section 3 invariant 5): every matched
    edge is tight. -/
def MatchedTight (s : DState) : Prop :=
  ∀ i, i < s.edges.length → matchedAt s i = true → edge_slack s i = 0

/-- Node duals are nonnegative (maintained through the delta1 guard). -/
def UNonneg (s : DState) : Prop :=
  ∀ v, v < s.n → 0 ≤ uAt s v

/-- Blossom duals of non-trivial blossoms are nonnegative (spec section
    3 invariant 4). -/
def ZNonneg (s : DState) : Prop :=
  ∀ B ∈ s.blossoms, 2 ≤ B.members.length → 0 ≤ B.z

/-- Structure of matched edges with respect to the alternating forest
    (spec sections 3 and 4.D): a matched edge lies inside one root
    blossom, or joins an even root to an odd root, or two free roots. -/
def MatchedLabelOK (s : DState) : Prop :=
  ∀ i, i < s.edges.length → matchedAt s i = true →
    get_blossom s (edgeAt s i).1 = get_blossom s (edgeAt s i).2.1 ∨
    (nodeLabel s (edgeAt s i).1 = .even ∧ nodeLabel s (edgeAt s i).2.1 = .odd) ∨
    (nodeLabel s (edgeAt s i).1 = .odd ∧ nodeLabel s (edgeAt s i).2.1 = .even) ∨
    (nodeLabel s (edgeAt s i).1 = .free ∧ nodeLabel s (edgeAt s i).2.1 = .free)

/-- Valid matching shape (spec section 3, Matching M): two distinct
    matched edges share no endpoint. -/
def ValidMatching (s : DState) : Prop :=
  ∀ i j, i < s.edges.length → j < s.edges.length → i ≠ j →
    matchedAt s i = true → matchedAt s j = true →
    (edgeAt s i).1 ≠ (edgeAt s j).1 ∧ (edgeAt s i).1 ≠ (edgeAt s j).2.1 ∧
    (edgeAt s i).2.1 ≠ (edgeAt s j).1 ∧ (edgeAt s i).2.1 ≠ (edgeAt s j).2.1

/-- The driver invariant bundle, spec section 3 (invariants that must
    hold at the start of each substage). -/
def DriverInv (s : DState) : Prop :=
  WFState s ∧ DualFeasible s ∧ MatchedTight s ∧ UNonneg s ∧ ZNonneg s ∧
  MatchedLabelOK s ∧ ValidMatching s

/-- Wellformed internal graph (established by construction validation):
    endpoints in range, no self-loops, nonnegative weights. -/
def GraphWF (g : WGraph) : Prop :=
  ∀ e ∈ g.edges, e.1 < g.n ∧ e.2.1 < g.n ∧ e.1 ≠ e.2.1 ∧ 0 ≤ e.2.2

/-- Maximum edge weight of the internal graph, 0 for an empty edge set. -/
def maxWeight (g : WGraph) : Int :=
  (maxOpt (g.edges.map (fun e => e.2.2))).getD 0

/-- Modelled from the spec (initialization of the duals is not in the
    header; invariant 4 must hold initially): initial node dual, half
    the maximum weight rounded up. -/
def uInit (g : WGraph) : Int :=
  (maxWeight g + 1) / 2

/-- Trivial blossom of a node (spec section 3 lifecycle: created once
    per node at initialization); with an empty matching every base is
    exposed, so the initial label is even. -/
def trivialBlossom (v : Nat) : Blossom :=
  { members := [v], base := v, z := 0, label := .even, isRoot := true,
    isTrivial := true, backtrackEdge := none }

/-- Modelled from the spec (run initialization, header line 57, body
    absent): empty matching, one trivial even root blossom per node,
    all node duals at uInit, all blossom duals at 0. -/
def initState (g : WGraph) : DState :=
  { n := g.n, edges := g.edges, u := List.replicate g.n (uInit g),
    blossoms := (List.range g.n).map trivialBlossom,
    is_in_matching := List.replicate g.edges.length false }

/-- Pointwise relation between blossom lists that agree on members,
    dual z, root flag and triviality (labels, bases and backtrack edges
    may differ). -/
def SameButLabels (bl bl' : List Blossom) : Prop :=
  bl'.length = bl.length ∧
  ∀ i, i < bl.length →
    (bl'.getD i default).members = (bl.getD i default).members ∧
    (bl'.getD i default).z = (bl.getD i default).z ∧
    (bl'.getD i default).isRoot = (bl.getD i default).isRoot ∧
    (bl'.getD i default).isTrivial = (bl.getD i default).isTrivial

/-- Modelled from the spec (section 4.D: the moves the driver makes
    between substages, at the granularity the dual bookkeeping sees).
    A step is a dual adjustment by the computed delta, a relabeling of
    the forest, a change of matching along tight edges (augmentation),
    the contraction of a new blossom with dual 0 (spec: z_new = 0), or
    the expansion of a blossom whose dual reached 0.  The primal moves
    carry the structural side conditions the spec states for them
    (section 3 invariants at the start of each substage). -/
inductive DStep : DState → DState → Prop where
  | adjust (s : DState) (d : Int) (hd : calc_delta s = some d) :
      DStep s (adjust_by_delta s d)
  | relabel (s : DState) (bl' : List Blossom)
      (hsame : SameButLabels s.blossoms bl')
      (hok : MatchedLabelOK { s with blossoms := bl' })
      (hwf : WFState { s with blossoms := bl' }) :
      DStep s { s with blossoms := bl' }
  | augment (s : DState) (m' : List Bool)
      (hlen : m'.length = s.edges.length)
      (htight : ∀ i, i < s.edges.length → m'.getD i false = true →
        edge_slack s i = 0)
      (hvalid : ValidMatching { s with is_in_matching := m' })
      (hok : MatchedLabelOK { s with is_in_matching := m' }) :
      DStep s { s with is_in_matching := m' }
  | contract (s : DState) (bl' : List Blossom) (B : Blossom)
      (hz : B.z = 0)
      (hproj : bl'.map projB = projB B :: s.blossoms.map projB)
      (hwf : WFState { s with blossoms := bl' })
      (hok : MatchedLabelOK { s with blossoms := bl' }) :
      DStep s { s with blossoms := bl' }
  | expand (s : DState) (bl' : List Blossom) (B : Blossom)
      (hz : B.z = 0)
      (hproj : s.blossoms.map projB = projB B :: bl'.map projB)
      (hwf : WFState { s with blossoms := bl' })
      (hok : MatchedLabelOK { s with blossoms := bl' }) :
      DStep s { s with blossoms := bl' }

/-- States reachable by the weighted driver on the internal graph g. -/
inductive Reachable (g : WGraph) : DState → Prop where
  | init : Reachable g (initState g)
  | step {s s' : DState} : Reachable g s → DStep s s' → Reachable g s'

/-- Modelled from the spec (section 6 exit conditions): the weighted
    run stops when the dual adjustment picks delta = delta1. -/
def weightedStop (s : DState) : Bool :=
  match calc_delta s, calc_delta1 s with
  | some d, some d1 => d == d1
  | _, _ => false

/-- The id of the first matched edge incident to v, none if v is
    unmatched. -/
def matchedEdgeOf (s : DState) (v : Nat) : Option Nat :=
  (List.range s.edges.length).find?
    (fun i => matchedAt s i && (v == (edgeAt s i).1 || v == (edgeAt s i).2.1))

/-- Modelled from the spec (getMatching, header lines 39 and 395; the
    accessor returning the matching map, built from the matched_vertex
    data): the partner of node a in the matching map, none when a is
    unmatched (unmatched nodes are absent from the map). -/
def getMatching (s : DState) (a : Nat) : Option Nat :=
  match matchedEdgeOf s a with
  | some i => some (if a = (edgeAt s i).1 then (edgeAt s i).2.1 else (edgeAt s i).1)
  | none => none

/-- The edge ids currently in the matching. -/
def matchedIds (s : DState) : List Nat :=
  (List.range s.edges.length).filter (fun i => matchedAt s i)

/-- Number of matched edges. -/
def matchingSize (s : DState) : Nat :=
  (matchedIds s).length

/-- Total weight (internal doubled units) of a list of edge ids. -/
def weightOfIds (s : DState) (M : List Nat) : Int :=
  (M.map (fun i => (edgeAt s i).2.2)).sum

/-- Total weight of the computed matching (internal doubled units). -/
def totalWeight (s : DState) : Int :=
  weightOfIds s (matchedIds s)

/-- Edge table lookup on the internal graph. -/
def gEdgeAt (g : WGraph) (i : Nat) : Nat × Nat × Int :=
  g.edges.getD i (0, 0, 0)

/-- Total weight of a list of edge ids of the internal graph. -/
def gWeight (g : WGraph) (M : List Nat) : Int :=
  (M.map (fun i => (gEdgeAt g i).2.2)).sum

/-- Whether two edges share no endpoint. -/
def edgesDisjointB (e f : Nat × Nat × Int) : Bool :=
  decide (e.1 ≠ f.1) && decide (e.1 ≠ f.2.1)
    && decide (e.2.1 ≠ f.1) && decide (e.2.1 ≠ f.2.1)

/-- Whether the edges of an id list are pairwise endpoint-disjoint. -/
def pairwiseDisjointB (g : WGraph) : List Nat → Bool
  | [] => true
  | i :: rest =>
    rest.all (fun j => edgesDisjointB (gEdgeAt g i) (gEdgeAt g j))
      && pairwiseDisjointB g rest

/-- Whether an id list is a valid matching of the internal graph. -/
def validListB (g : WGraph) (M : List Nat) : Bool :=
  M.all (fun i => decide (i < g.edges.length)) && pairwiseDisjointB g M

/-- All matchings of the internal graph (brute-force reference). -/
def allMatchings (g : WGraph) : List (List Nat) :=
  (List.range g.edges.length).sublists.filter (validListB g)

/-- Modelled from the spec (section 8: the reference LP optimum used by
    the tests on graphs up to 20 nodes; the test harness is not part of
    src): the best total weight over all matchings of the graph, which
    on integral instances is the LP optimum of the matching polytope. -/
def refOptimum (g : WGraph) : Int :=
  (maxOpt ((allMatchings g).map (gWeight g))).getD 0

/-- The matched edges lying inside blossom B. -/
def matchedInside (s : DState) (B : Blossom) : List Nat :=
  (matchedIds s).filter
    (fun i => decide ((edgeAt s i).1 ∈ B.members) && decide ((edgeAt s i).2.1 ∈ B.members))

/-- Node v is exposed: no matched edge is incident to it. -/
def NodeUnmatched (s : DState) (v : Nat) : Prop :=
  matchedEdgeOf s v = none

/-- Modelled from the spec (section 4.D initialize_stage: a root
    blossom whose base is exposed is marked even, else free; section 3
    invariant 3): every exposed node lies in an even root blossom. -/
def ExposedEven (s : DState) : Prop :=
  ∀ v, v < s.n → NodeUnmatched s v → nodeLabel s v = .even

/-- Exposed nodes carry minimal duals.  This is a derived invariant of
    the driver, proved below, never assumed: exposed nodes are even
    throughout (ExposedEven), so every dual adjustment decreases their
    duals by delta while no dual decreases by more. -/
def ExposedMin (s : DState) : Prop :=
  ∀ w, w < s.n → NodeUnmatched s w → ∀ v, v < s.n → uAt s w ≤ uAt s v

/-- Modelled from the spec (section 3: a blossom is a contracted
    odd-length alternating cycle, and invariant 6 gives an even
    alternating path from the base to every node inside, so the
    interior matching pairs all members but the base; section 4.D
    augmentation rewrites the interior so this is maintained): every
    blossom carries floor(|B|/2) matched edges inside. -/
def BlossomsFull (s : DState) : Prop :=
  ∀ B ∈ s.blossoms, (matchedInside s B).length = B.members.length / 2

/-- Modelled from the spec (sections 3 and 4.D; a refinement of DStep):
    the driver moves together with the structural discipline the spec
    states for the primal moves: after relabeling, contraction and
    expansion every exposed root blossom is labeled even (section 4.D
    initialize_stage and invariant 3), augmentation only shrinks the
    set of exposed nodes (section 4.D: augmentation matches the two
    exposed endpoints and keeps interior nodes matched), and
    augmentation and contraction keep every blossom interior fully
    matched (section 3 invariant 6, section 4.D augmentation and
    blossom creation). -/
inductive DStepT : DState → DState → Prop where
  | adjust (s : DState) (d : Int) (hd : calc_delta s = some d) :
      DStepT s (adjust_by_delta s d)
  | relabel (s : DState) (bl' : List Blossom)
      (hsame : SameButLabels s.blossoms bl')
      (hok : MatchedLabelOK { s with blossoms := bl' })
      (hwf : WFState { s with blossoms := bl' })
      (hexp : ExposedEven { s with blossoms := bl' }) :
      DStepT s { s with blossoms := bl' }
  | augment (s : DState) (m' : List Bool)
      (hlen : m'.length = s.edges.length)
      (htight : ∀ i, i < s.edges.length → m'.getD i false = true →
        edge_slack s i = 0)
      (hvalid : ValidMatching { s with is_in_matching := m' })
      (hok : MatchedLabelOK { s with is_in_matching := m' })
      (hmono : ∀ v, NodeUnmatched { s with is_in_matching := m' } v →
        NodeUnmatched s v)
      (hfull : BlossomsFull { s with is_in_matching := m' }) :
      DStepT s { s with is_in_matching := m' }
  | contract (s : DState) (bl' : List Blossom) (B : Blossom)
      (hz : B.z = 0)
      (hproj : bl'.map projB = projB B :: s.blossoms.map projB)
      (hwf : WFState { s with blossoms := bl' })
      (hok : MatchedLabelOK { s with blossoms := bl' })
      (hexp : ExposedEven { s with blossoms := bl' })
      (hfull : BlossomsFull { s with blossoms := bl' }) :
      DStepT s { s with blossoms := bl' }
  | expand (s : DState) (bl' : List Blossom) (B : Blossom)
      (hz : B.z = 0)
      (hproj : s.blossoms.map projB = projB B :: bl'.map projB)
      (hwf : WFState { s with blossoms := bl' })
      (hok : MatchedLabelOK { s with blossoms := bl' })
      (hexp : ExposedEven { s with blossoms := bl' }) :
      DStepT s { s with blossoms := bl' }

/-- States reachable by the disciplined weighted driver on g. -/
inductive ReachableT (g : WGraph) : DState → Prop where
  | init : ReachableT g (initState g)
  | step {s s' : DState} : ReachableT g s → DStepT s s' → ReachableT g s'

/-- The dual objective: sum of node duals plus sum over blossoms of
    z_B times floor(|B|/2) (the matching LP dual, spec section 3
    invariant 4 and glossary). -/
def dualObj (s : DState) : Int :=
  ((List.range s.n).map (uAt s)).sum
    + (s.blossoms.map (fun B => B.z * ((B.members.length / 2 : Nat) : Int))).sum

/-- The endpoint list of a list of edge ids. -/
def endNodes (s : DState) (M : List Nat) : List Nat :=
  M.flatMap (fun i => [(edgeAt s i).1, (edgeAt s i).2.1])

/-- Reversed edge description (reverse, header line 171). -/
def reverseEdge (e : EdgeInfo) : EdgeInfo :=
  ⟨e.v, e.u, e.id⟩

/-- Set the label and backtrack edge of the blossom at index i. -/
def setLabelBt (bl : List Blossom) (i : Nat) (lab : BlossomLabel)
    (bt : Option EdgeInfo) : List Blossom :=
  bl.set i { bl.getD i default with label := lab, backtrackEdge := bt }

/-- Modelled from the spec (section 4.D, consider_edge, even-free case:
    label the free blossom odd via the backtrack edge, label the root
    blossom of the mate of its base even via the matched edge): e is
    oriented with e.v inside the free blossom bfree. -/
def labelOddEven (s : DState) (bfree : Nat) (e : EdgeInfo) : DState :=
  let bl1 := setLabelBt s.blossoms bfree .odd (some e)
  let bbase := (blossomAt s bfree).base
  match matchedEdgeOf s bbase with
  | some i =>
    let mate := if bbase = (edgeAt s i).1 then (edgeAt s i).2.1 else (edgeAt s i).1
    match rootOfAux mate bl1 with
    | some bm =>
      { s with blossoms := setLabelBt bl1 bm .even (some ⟨bbase, mate, i⟩) }
    | none => { s with blossoms := bl1 }
  | none => { s with blossoms := bl1 }

/-- The root blossom the backtrack edge of b points back to. -/
def parentOf (s : DState) (b : Nat) : Option Nat :=
  match (blossomAt s b).backtrackEdge with
  | some e => get_blossom s e.u
  | none => none

/-- Path of root blossom indices from b toward the root of its
    alternating tree, following backtrack edges, with fuel. -/
def rootPathAux (s : DState) : Nat → Nat → List Nat
  | 0, b => [b]
  | fuel + 1, b =>
    match parentOf s b with
    | some p => b :: rootPathAux s fuel p
    | none => [b]

/-- Modelled from the spec (section 4.D backtracking; backtrack, header
    line 125, body absent): the path from a root blossom to the root of
    its tree. -/
def rootPath (s : DState) (b : Nat) : List Nat :=
  rootPathAux s s.blossoms.length b

/-- First element of the first list appearing in the second list (the
    least common ancestor of two backtrack paths). -/
def firstCommon (u v : List Nat) : Option Nat :=
  u.find? (fun b => v.contains b)

/-- Prefix of a list up to and including the first occurrence of x. -/
def upTo (x : Nat) : List Nat → List Nat
  | [] => []
  | y :: rest => if y = x then [y] else y :: upTo x rest

/-- Flip one is_in_matching bit (swap_edge_in_matching, header line
    143, body absent). -/
def flipEdge (m : List Bool) (i : Nat) : List Bool :=
  m.set i (!(m.getD i false))

/-- The backtrack edge ids along a path of blossom indices. -/
def btIds (s : DState) (path : List Nat) : List Nat :=
  path.filterMap (fun b => ((blossomAt s b).backtrackEdge).map (fun e => e.id))

/-- Modelled from the spec (section 4.D augmentation; augment_path,
    header line 133, body absent): flip the matched status of the
    backtrack edges along both root paths, then flip the triggering
    edge, which was unmatched, to matched.  The interior rewrites of
    sub-blossom matchings (lazy_augment_path_in_blossom) do not change
    which edge ids are matched outside the root blossoms on the paths
    and are elided. -/
def augmentAlong (s : DState) (upath vpath : List Nat) (e : EdgeInfo) : DState :=
  let ids := btIds s upath ++ btIds s vpath
  let m1 := ids.foldl flipEdge s.is_in_matching
  { s with is_in_matching := m1.set e.id true }

/-- Demote the blossom at index b to a non-root. -/
def demoteAt (bl : List Blossom) (b : Nat) : List Blossom :=
  bl.set b { bl.getD b default with isRoot := false }

/-- Modelled from the spec (section 4.D blossom creation;
    create_new_blossom, header line 128, body absent): contract the
    root blossoms of the discovered odd cycle into a new even root
    blossom with dual z = 0 inheriting base and backtrack edge of the
    least common ancestor; the children are demoted to non-roots. -/
def contractCycle (s : DState) (cyc : List Nat) (lca : Nat) : DState :=
  let nb : Blossom :=
    { members := (cyc.map (fun b => (blossomAt s b).members)).flatten,
      base := (blossomAt s lca).base, z := 0, label := .even,
      isRoot := true, isTrivial := false,
      backtrackEdge := (blossomAt s lca).backtrackEdge }
  { s with blossoms := nb :: cyc.foldl demoteAt s.blossoms }

/-- Modelled from the spec (consider_edge, header line 122, body
    absent; spec section 4.D substage): case analysis on the root
    blossoms of the endpoints.  Ignore when both endpoints lie in the
    same root blossom or both roots are free (or an endpoint has no
    root).  On an even-free pair label the free blossom odd and the
    mate of its base even.  On an even-even pair backtrack; if the two
    paths meet, contract the cycle at the least common ancestor, else
    the trees differ and the matching is augmented.  The call returns
    true exactly in the augmenting branch. -/
def consider_edge (s : DState) (e : EdgeInfo) : DState × Bool :=
  match get_blossom s e.u, get_blossom s e.v with
  | some bu, some bv =>
    if bu = bv ∨ ((blossomAt s bu).label = .free ∧ (blossomAt s bv).label = .free) then
      (s, false)
    else if (blossomAt s bu).label = .even ∧ (blossomAt s bv).label = .free then
      (labelOddEven s bv e, false)
    else if (blossomAt s bu).label = .free ∧ (blossomAt s bv).label = .even then
      (labelOddEven s bu (reverseEdge e), false)
    else if (blossomAt s bu).label = .even ∧ (blossomAt s bv).label = .even then
      match firstCommon (rootPath s bu) (rootPath s bv) with
      | some lca =>
        (contractCycle s ((upTo lca (rootPath s bu)).reverse
          ++ (upTo lca (rootPath s bv)).dropLast) lca, false)
      | none => (augmentAlong s (rootPath s bu) (rootPath s bv) e, true)
    else (s, false)
  | _, _ => (s, false)

/-- Modelled from the spec (section 4.D substage and section 4.E: the
    useful edges handed to consider_edge during a substage are tight
    edges with an even endpoint): e describes a useful edge of s. -/
def UsefulEdge (s : DState) (e : EdgeInfo) : Prop :=
  e.id < s.edges.length ∧ (edgeAt s e.id).1 = e.u ∧ (edgeAt s e.id).2.1 = e.v ∧
  edge_slack s e.id = 0 ∧
  ((nodeLabel s e.u).isEven = true ∨ (nodeLabel s e.v).isEven = true)

/-- Modelled from the spec (section 5: the tie-break rule must be
    documented and fixed, suggested smaller edge id wins): one substage
    move under the documented tie-break; among all useful edges, the
    one with the smallest edge id is handed to consider_edge. -/
inductive TieBreakStep : DState → DState → Prop where
  | mk (s : DState) (e : EdgeInfo) (huse : UsefulEdge s e)
      (hmin : ∀ f, UsefulEdge s f → e.id ≤ f.id) :
      TieBreakStep s (consider_edge s e).1

/-- k tie-break substage moves in sequence. -/
inductive IterTie : Nat → DState → DState → Prop where
  | refl (s : DState) : IterTie 0 s s
  | step {k : Nat} {s t u : DState} : TieBreakStep s t → IterTie k t u →
      IterTie (k + 1) s u

/-- Modelled from the spec (BlossomMaximumMatching::run, header line
    57, body absent; spec section 4.D top-level loop and section 6 exit
    conditions): iterate stages; a stage ends with a dual adjustment,
    and the run stops as soon as the adjustment picks delta = delta1.
    The stage body is a parameter carrying the contract the spec states
    for it: a stage that does not reach the stop condition augments the
    matching (strictly increasing its size), preserves the node count,
    and never produces more than n matched edges. -/
def runStages (stage : DState → DState)
    (hc : ∀ t, weightedStop (stage t) = false →
      matchingSize t < matchingSize (stage t) ∧ (stage t).n = t.n ∧
      matchingSize (stage t) ≤ t.n) (s : DState) : DState :=
  if h : weightedStop (stage s) = true then stage s
  else runStages stage hc (stage s)
termination_by s.n + 1 - matchingSize s
decreasing_by
  have h1 := hc s (by simpa using h)
  omega

/-- Iterated application of a stage body. -/
def iterStage (stage : DState → DState) : Nat → DState → DState
  | 0, s => s
  | k + 1, s => iterStage stage k (stage s)

/-- Modelled from the spec (MicaliVaziraniMatching::run, header line
    414, body absent; spec sections 4.H and 6): iterate phases; a phase
    that augments strictly increases the matching, and the run stops
    with the first phase that finds no augmenting path (leaving the
    matching size unchanged). -/
def MicaliVaziraniMatching.run (phase : DState → DState)
    (hc : ∀ t, matchingSize (phase t) ≠ matchingSize t →
      matchingSize t < matchingSize (phase t) ∧ (phase t).n = t.n ∧
      matchingSize (phase t) ≤ t.n) (s : DState) : DState :=
  if h : matchingSize (phase s) = matchingSize s then phase s
  else MicaliVaziraniMatching.run phase hc (phase s)
termination_by s.n + 1 - matchingSize s
decreasing_by
  have h1 := hc s h
  omega

/-- The change a dual adjustment by d applies to the z dual of a
    blossom record. -/
def zOffset (d : Int) (B : Blossom) : Int :=
  if B.isRoot = true then
    match B.label with
    | .even => 2 * d
    | .odd => -(2 * d)
    | .free => 0
  else 0

/-- The change a dual adjustment by d applies to a node dual, by
    label. -/
def duVal (d : Int) : BlossomLabel → Int
  | .even => -d
  | .odd => d
  | .free => 0

/-- The example state with both trivial blossoms labeled free. -/
def egStateFree : DState :=
  { n := 2, edges := [(0, 1, 2)], u := [1, 1],
    blossoms := [⟨[0], 0, 0, .free, true, true, none⟩,
                 ⟨[1], 1, 0, .free, true, true, none⟩],
    is_in_matching := [false] }

/-- Two edges of the table share no endpoint. -/
def edgesDisjointP (s : DState) (i j : Nat) : Prop :=
  (edgeAt s i).1 ≠ (edgeAt s j).1 ∧ (edgeAt s i).1 ≠ (edgeAt s j).2.1 ∧
  (edgeAt s i).2.1 ≠ (edgeAt s j).1 ∧ (edgeAt s i).2.1 ≠ (edgeAt s j).2.1

/-! ### Theorems -/

theorem minOpt_le_of_mem {l : List Int} {m x : Int}
    (hm : minOpt l = some m) (hx : x ∈ l) : m ≤ x := by
  induction l generalizing m with
  | nil => cases hx
  | cons y ys ih =>
    rcases List.mem_cons.mp hx with rfl | hx'
    · cases hys : minOpt ys with
      | none => simp [minOpt, hys] at hm; omega
      | some k => simp [minOpt, hys] at hm; subst hm; exact min_le_left _ _
    · cases hys : minOpt ys with
      | none =>
        cases ys with
        | nil => cases hx'
        | cons z zs =>
          exfalso
          simp [minOpt] at hys
          cases h : minOpt zs <;> simp [h] at hys
      | some k =>
        simp [minOpt, hys] at hm
        subst hm
        exact le_trans (min_le_right _ _) (ih hys hx')

theorem minOpt_mem {l : List Int} {m : Int} (hm : minOpt l = some m) : m ∈ l := by
  induction l generalizing m with
  | nil => simp [minOpt] at hm
  | cons y ys ih =>
    cases hys : minOpt ys with
    | none => simp [minOpt, hys] at hm; simp [hm]
    | some k =>
      simp [minOpt, hys] at hm
      rcases min_choice y k with h | h <;> rw [← hm, h]
      · exact List.mem_cons_self _ _
      · exact List.mem_cons_of_mem _ (ih hys)

theorem minOpt_isSome_of_mem {l : List Int} {x : Int} (hx : x ∈ l) :
    ∃ m, minOpt l = some m := by
  cases l with
  | nil => cases hx
  | cons y ys =>
    cases h : minOpt ys with
    | none => exact ⟨y, by simp [minOpt, h]⟩
    | some k => exact ⟨min y k, by simp [minOpt, h]⟩

theorem le_maxOpt_of_mem {l : List Int} {m x : Int}
    (hm : maxOpt l = some m) (hx : x ∈ l) : x ≤ m := by
  induction l generalizing m with
  | nil => cases hx
  | cons y ys ih =>
    rcases List.mem_cons.mp hx with rfl | hx'
    · cases hys : maxOpt ys with
      | none => simp [maxOpt, hys] at hm; omega
      | some k => simp [maxOpt, hys] at hm; subst hm; exact le_max_left _ _
    · cases hys : maxOpt ys with
      | none =>
        cases ys with
        | nil => cases hx'
        | cons z zs =>
          exfalso
          simp [maxOpt] at hys
          cases h : maxOpt zs <;> simp [h] at hys
      | some k =>
        simp [maxOpt, hys] at hm
        subst hm
        exact le_trans (ih hys hx') (le_max_right _ _)

theorem maxOpt_mem {l : List Int} {m : Int} (hm : maxOpt l = some m) : m ∈ l := by
  induction l generalizing m with
  | nil => simp [maxOpt] at hm
  | cons y ys ih =>
    cases hys : maxOpt ys with
    | none => simp [maxOpt, hys] at hm; simp [hm]
    | some k =>
      simp [maxOpt, hys] at hm
      rcases max_choice y k with h | h <;> rw [← hm, h]
      · exact List.mem_cons_self _ _
      · exact List.mem_cons_of_mem _ (ih hys)

theorem maxOpt_isSome_of_mem {l : List Int} {x : Int} (hx : x ∈ l) :
    ∃ m, maxOpt l = some m := by
  cases l with
  | nil => cases hx
  | cons y ys =>
    cases h : maxOpt ys with
    | none => exact ⟨y, by simp [maxOpt, h]⟩
    | some k => exact ⟨max y k, by simp [maxOpt, h]⟩

theorem getD_map_range {α : Type} (n : Nat) (f : Nat → α) (v : Nat) (d : α)
    (hv : v < n) : ((List.range n).map f).getD v d = f v := by
  rw [List.getD_eq_getElem?_getD, List.getElem?_map, List.getElem?_range hv]
  rfl

theorem getD_map_lt {α β : Type} (l : List α) (f : α → β) (i : Nat) (d : β)
    (d' : α) (hi : i < l.length) : (l.map f).getD i d = f (l.getD i d') := by
  rw [List.getD_eq_getElem?_getD, List.getElem?_map,
    List.getElem?_eq_getElem hi, List.getD_eq_getElem?_getD,
    List.getElem?_eq_getElem hi]
  rfl

theorem uAt_adjust (s : DState) (d : Int) (v : Nat) (hv : v < s.n) :
    uAt (adjust_by_delta s d) v =
      match nodeLabel s v with
      | .even => uAt s v - d
      | .odd => uAt s v + d
      | .free => uAt s v := by
  show (adjustU s d).getD v 0 = _
  rw [adjustU, getD_map_range s.n _ v 0 hv]

theorem blossomAt_adjust (s : DState) (d : Int) (i : Nat)
    (hi : i < s.blossoms.length) :
    blossomAt (adjust_by_delta s d) i = adjustBlossom d (blossomAt s i) := by
  show (s.blossoms.map (adjustBlossom d)).getD i default = _
  rw [getD_map_lt s.blossoms _ i default default hi]
  rfl

/-- C4: applying a dual adjustment by delta decreases the dual u_v of
    every node in an even root blossom by delta, increases it by delta
    for nodes in odd root blossoms, leaves it unchanged for nodes in
    free root blossoms; the dual z of every even root blossom grows by
    2*delta, that of every odd root blossom shrinks by 2*delta, free
    root blossoms and non-root blossoms are unchanged. -/
theorem adjust_by_delta_spec (s : DState) (d : Int) :
    (∀ v, v < s.n →
      (nodeLabel s v = .even → uAt (adjust_by_delta s d) v = uAt s v - d) ∧
      (nodeLabel s v = .odd → uAt (adjust_by_delta s d) v = uAt s v + d) ∧
      (nodeLabel s v = .free → uAt (adjust_by_delta s d) v = uAt s v)) ∧
    (∀ i, i < s.blossoms.length →
      ((blossomAt s i).isRoot = true →
        ((blossomAt s i).label = .even →
          (blossomAt (adjust_by_delta s d) i).z = (blossomAt s i).z + 2 * d) ∧
        ((blossomAt s i).label = .odd →
          (blossomAt (adjust_by_delta s d) i).z = (blossomAt s i).z - 2 * d) ∧
        ((blossomAt s i).label = .free →
          blossomAt (adjust_by_delta s d) i = blossomAt s i)) ∧
      ((blossomAt s i).isRoot = false →
        blossomAt (adjust_by_delta s d) i = blossomAt s i)) := by
  constructor
  · intro v hv
    refine ⟨?_, ?_, ?_⟩ <;> intro hl <;> rw [uAt_adjust s d v hv, hl]
  · intro i hi
    rw [blossomAt_adjust s d i hi]
    constructor
    · intro hroot
      refine ⟨?_, ?_, ?_⟩ <;> intro hl <;> simp [adjustBlossom, hroot, hl]
    · intro hroot
      simp [adjustBlossom, hroot]

theorem adjust_by_delta_spec_witness :
    nodeLabel egState 0 = .even ∧
      uAt (adjust_by_delta egState 3) 0 = uAt egState 0 - 3 :=
  ⟨by decide, ((adjust_by_delta_spec egState 3).1 0 (by decide)).1 (by decide)⟩

/-- C8: construction fails with an InvalidGraph error exactly when the
    input graph contains a self-loop or, in a weighted variant, an edge
    weight that is not a nonnegative integer; no such error is raised
    for valid inputs. -/
theorem construct_invalid_iff (weighted : Bool) (g : InputGraph) :
    constructMatcher weighted g = .error .invalidGraph ↔
      ((∃ e ∈ g.edges, e.1 = e.2.1) ∨
       (weighted = true ∧ ∃ e ∈ g.edges, e.2.2.den ≠ 1 ∨ e.2.2 < 0)) := by
  unfold constructMatcher
  by_cases hcond : (hasSelfLoop g || (weighted && hasBadWeight g)) = true
  · rw [if_pos hcond]
    simp only [hasSelfLoop, hasBadWeight, Bool.or_eq_true, Bool.and_eq_true,
      List.any_eq_true, beq_iff_eq, decide_eq_true_eq] at hcond
    constructor
    · intro _
      tauto
    · intro _
      rfl
  · rw [if_neg hcond]
    simp only [hasSelfLoop, hasBadWeight, Bool.or_eq_true, Bool.and_eq_true,
      List.any_eq_true, beq_iff_eq, decide_eq_true_eq] at hcond
    constructor
    · intro hc
      cases hc
    · intro hc
      exact absurd (by tauto) hcond

/-- C10: the constructor stores a private copy of the input graph, so
    neither construction nor run modifies the graph object the caller
    passed in, whatever in-place updates run applies to the stored
    member. -/
theorem construct_run_preserve_caller_graph (g : InputGraph)
    (mutate : InputGraph → InputGraph) :
    (constructWorld g).storedGraph = g ∧
    (constructWorld g).callerGraph = g ∧
    (runWorld mutate (constructWorld g)).callerGraph = g :=
  ⟨rfl, rfl, rfl⟩

theorem sum_map_zero_of {α : Type} (l : List α) (f : α → Int)
    (h : ∀ x ∈ l, f x = 0) : (l.map f).sum = 0 := by
  induction l with
  | nil => rfl
  | cons y ys ih =>
    simp only [List.map_cons, List.sum_cons, h y (List.mem_cons_self y ys)]
    rw [ih (fun x hx => h x (List.mem_cons_of_mem y hx))]
    ring

theorem sum_map_add {α : Type} (l : List α) (f g : α → Int) :
    (l.map (fun x => f x + g x)).sum = (l.map f).sum + (l.map g).sum := by
  induction l with
  | nil => rfl
  | cons y ys ih => simp only [List.map_cons, List.sum_cons, ih]; ring

theorem sum_if_zero_of {α : Type} [Inhabited α] (l : List α) (p : α → Prop)
    [DecidablePred p] (g : α → Int)
    (h : ∀ j, j < l.length → p (l.getD j default) → g (l.getD j default) = 0) :
    (l.map (fun x => if p x then g x else 0)).sum = 0 := by
  induction l with
  | nil => rfl
  | cons y ys ih =>
    simp only [List.map_cons, List.sum_cons]
    have hy : (if p y then g y else 0) = 0 := by
      split
      · exact h 0 (by simp) (by simpa using ‹p y›)
      · rfl
    rw [hy, ih (fun j hj hp => h (j + 1) (by simpa using hj) (by simpa using hp))]
    rfl

theorem sum_if_single {α : Type} [Inhabited α] (l : List α) (p : α → Prop)
    [DecidablePred p] (g : α → Int) (r : Nat) (hr : r < l.length)
    (hp : p (l.getD r default))
    (hnz : ∀ j, j < l.length → p (l.getD j default) → j ≠ r →
      g (l.getD j default) = 0) :
    (l.map (fun x => if p x then g x else 0)).sum = g (l.getD r default) := by
  induction l generalizing r with
  | nil => cases hr
  | cons y ys ih =>
    simp only [List.map_cons, List.sum_cons]
    cases r with
    | zero =>
      have htail : (ys.map (fun x => if p x then g x else 0)).sum = 0 := by
        refine sum_if_zero_of ys p g (fun j hj hpj => ?_)
        exact hnz (j + 1) (by simpa using hj) (by simpa using hpj) (by simp)
      simp only [List.getD_cons_zero] at hp ⊢
      rw [if_pos hp, htail]
      ring
    | succ r' =>
      have hy : (if p y then g y else 0) = 0 := by
        split
        · exact hnz 0 (by simp) (by simpa using ‹p y›) (by simp)
        · rfl
      have hr' : r' < ys.length := by simpa using hr
      simp only [List.getD_cons_succ] at hp ⊢
      rw [hy, ih r' hr' hp
        (fun j hj hpj hne => hnz (j + 1) (by simpa using hj) (by simpa using hpj)
          (by simpa using hne))]
      ring

theorem sum_if_const {α : Type} (l : List α) (p : α → Bool) (c : Int) :
    (l.map (fun x => if p x = true then c else 0)).sum = c * (l.filter p).length := by
  induction l with
  | nil => simp
  | cons y ys ih =>
    simp only [List.map_cons, List.sum_cons, List.filter_cons]
    cases hy : p y <;> simp [hy, ih] <;> ring

theorem sum_sum_comm {α β : Type} (l1 : List α) (l2 : List β) (f : α → β → Int) :
    (l1.map (fun x => (l2.map (fun y => f x y)).sum)).sum
      = (l2.map (fun y => (l1.map (fun x => f x y)).sum)).sum := by
  induction l1 with
  | nil => simp
  | cons z zs ih =>
    simp only [List.map_cons, List.sum_cons, ih]
    rw [← sum_map_add]

theorem blossomAt_mem (s : DState) (i : Nat) (hi : i < s.blossoms.length) :
    blossomAt s i ∈ s.blossoms := by
  rw [blossomAt, List.getD_eq_getElem?_getD, List.getElem?_eq_getElem hi]
  exact List.getElem_mem hi

theorem rootOfAux_spec {v : Nat} {l : List Blossom} {i : Nat}
    (h : rootOfAux v l = some i) :
    i < l.length ∧ (l.getD i default).isRoot = true ∧
      v ∈ (l.getD i default).members := by
  induction l generalizing i with
  | nil => cases h
  | cons B rest ih =>
    by_cases hB : B.isRoot = true ∧ v ∈ B.members
    · rw [rootOfAux, if_pos hB] at h
      cases h
      exact ⟨by simp, by simpa using hB.1, by simpa using hB.2⟩
    · rw [rootOfAux, if_neg hB] at h
      cases hr : rootOfAux v rest with
      | none => rw [hr] at h; cases h
      | some j =>
        rw [hr] at h
        simp at h
        obtain ⟨hj1, hj2, hj3⟩ := ih hr
        subst h
        exact ⟨by simpa using hj1, by simpa using hj2, by simpa using hj3⟩

theorem rootOfAux_none {v : Nat} {l : List Blossom} (h : rootOfAux v l = none) :
    ∀ i, i < l.length →
      ¬((l.getD i default).isRoot = true ∧ v ∈ (l.getD i default).members) := by
  induction l with
  | nil => intro i hi; cases hi
  | cons B rest ih =>
    intro i hi
    by_cases hB : B.isRoot = true ∧ v ∈ B.members
    · rw [rootOfAux, if_pos hB] at h
      cases h
    · rw [rootOfAux, if_neg hB] at h
      cases i with
      | zero => simpa using hB
      | succ i' =>
        cases hr : rootOfAux v rest with
        | none =>
          have := ih hr i' (by simpa using hi)
          simpa using this
        | some j => rw [hr] at h; cases h

theorem get_blossom_isSome (s : DState) (hwf : WFState s) (v : Nat)
    (hv : v < s.n) : ∃ i, get_blossom s v = some i := by
  obtain ⟨i, hi, hroot, hmem⟩ := hwf.2.2.2.1 v hv
  cases h : get_blossom s v with
  | none => exact absurd ⟨hroot, hmem⟩ (rootOfAux_none h i hi)
  | some j => exact ⟨j, rfl⟩

theorem get_blossom_unique (s : DState) (hwf : WFState s) (v : Nat) {i : Nat}
    (hi : i < s.blossoms.length) (hroot : (blossomAt s i).isRoot = true)
    (hmem : v ∈ (blossomAt s i).members) : get_blossom s v = some i := by
  cases h : get_blossom s v with
  | none => exact absurd ⟨hroot, hmem⟩ (rootOfAux_none h i hi)
  | some j =>
    obtain ⟨hj, hjroot, hjmem⟩ := rootOfAux_spec h
    by_cases hij : i = j
    · rw [hij]
    · exact absurd (show v ∈ (blossomAt s j).members from hjmem)
        (hwf.2.2.2.2.1 i j hi hj hij hroot hjroot v hmem)

theorem get_blossom_mem_spec (s : DState) {v i : Nat}
    (h : get_blossom s v = some i) :
    i < s.blossoms.length ∧ (blossomAt s i).isRoot = true ∧
      v ∈ (blossomAt s i).members :=
  rootOfAux_spec h

theorem adjustBlossom_members (d : Int) (B : Blossom) :
    (adjustBlossom d B).members = B.members := by
  unfold adjustBlossom
  cases hR : B.isRoot <;> cases hL : B.label <;> simp [hR, hL]

theorem adjustBlossom_isRoot (d : Int) (B : Blossom) :
    (adjustBlossom d B).isRoot = B.isRoot := by
  unfold adjustBlossom
  cases hR : B.isRoot <;> cases hL : B.label <;> simp [hR, hL]

theorem adjustBlossom_label (d : Int) (B : Blossom) :
    (adjustBlossom d B).label = B.label := by
  unfold adjustBlossom
  cases hR : B.isRoot <;> cases hL : B.label <;> simp [hR, hL]

theorem adjustBlossom_isTrivial (d : Int) (B : Blossom) :
    (adjustBlossom d B).isTrivial = B.isTrivial := by
  unfold adjustBlossom
  cases hR : B.isRoot <;> cases hL : B.label <;> simp [hR, hL]

theorem adjustBlossom_z (d : Int) (B : Blossom) :
    (adjustBlossom d B).z = B.z + zOffset d B := by
  unfold adjustBlossom zOffset
  cases hR : B.isRoot <;> cases hL : B.label <;> simp [hR, hL] <;> ring

theorem projB_adjustBlossom (d : Int) (B : Blossom) :
    projB (adjustBlossom d B) = (B.members, B.z + zOffset d B) := by
  rw [projB, adjustBlossom_members, adjustBlossom_z]

theorem rootOfAux_map (f : Blossom → Blossom)
    (hf : ∀ B, (f B).isRoot = B.isRoot ∧ (f B).members = B.members)
    (v : Nat) (l : List Blossom) : rootOfAux v (l.map f) = rootOfAux v l := by
  induction l with
  | nil => rfl
  | cons B rest ih =>
    simp only [List.map_cons, rootOfAux, (hf B).1, (hf B).2, ih]

theorem get_blossom_adjust (s : DState) (d : Int) (v : Nat) :
    get_blossom (adjust_by_delta s d) v = get_blossom s v :=
  rootOfAux_map (adjustBlossom d)
    (fun B => ⟨adjustBlossom_isRoot d B, adjustBlossom_members d B⟩) v s.blossoms

theorem blossomAt_adjust_eq (s : DState) (d : Int) (i : Nat)
    (hi : i < s.blossoms.length) :
    blossomAt (adjust_by_delta s d) i = adjustBlossom d (blossomAt s i) := by
  show (s.blossoms.map (adjustBlossom d)).getD i default = _
  rw [getD_map_lt s.blossoms _ i default default hi]
  rfl

theorem nodeLabel_adjust (s : DState) (d : Int) (v : Nat) :
    nodeLabel (adjust_by_delta s d) v = nodeLabel s v := by
  unfold nodeLabel
  rw [get_blossom_adjust]
  cases h : get_blossom s v with
  | none => rfl
  | some i =>
    obtain ⟨hi, _, _⟩ := rootOfAux_spec h
    show (blossomAt (adjust_by_delta s d) i).label = (blossomAt s i).label
    rw [blossomAt_adjust_eq s d i hi, adjustBlossom_label]

theorem zPairSum_eq (s : DState) (a b : Nat) :
    zPairSum s a b
      = (s.blossoms.map
          (fun B => if a ∈ B.members ∧ b ∈ B.members then B.z else 0)).sum := by
  unfold zPairSum zps
  rw [List.map_map]
  rfl

theorem zPairSum_adjust (s : DState) (d : Int) (a b : Nat) :
    zPairSum (adjust_by_delta s d) a b = zPairSum s a b
      + (s.blossoms.map
          (fun B => if a ∈ B.members ∧ b ∈ B.members then zOffset d B else 0)).sum := by
  rw [zPairSum_eq, zPairSum_eq]
  show ((s.blossoms.map (adjustBlossom d)).map
      (fun B => if a ∈ B.members ∧ b ∈ B.members then B.z else 0)).sum = _
  rw [List.map_map]
  have hcong : ∀ B ∈ s.blossoms,
      ((fun B : Blossom => if a ∈ B.members ∧ b ∈ B.members then B.z else 0)
          ∘ adjustBlossom d) B
        = (fun B : Blossom =>
            (if a ∈ B.members ∧ b ∈ B.members then B.z else 0)
            + (if a ∈ B.members ∧ b ∈ B.members then zOffset d B else 0)) B := by
    intro B _
    simp only [Function.comp_apply, adjustBlossom_members, adjustBlossom_z]
    split
    · rfl
    · ring
  rw [List.map_congr_left hcong, sum_map_add]

theorem zOffset_nonroot {d : Int} {B : Blossom} (h : ¬B.isRoot = true) :
    zOffset d B = 0 := by
  unfold zOffset
  rw [if_neg h]

theorem zdiff_same_root (s : DState) (hwf : WFState s) (d : Int) {a b r : Nat}
    (ha : get_blossom s a = some r) (hb : get_blossom s b = some r) :
    (s.blossoms.map
      (fun B => if a ∈ B.members ∧ b ∈ B.members then zOffset d B else 0)).sum
      = zOffset d (blossomAt s r) := by
  obtain ⟨hr, hroot, hmem⟩ := get_blossom_mem_spec s ha
  obtain ⟨_, _, hmemb⟩ := get_blossom_mem_spec s hb
  refine sum_if_single s.blossoms _ (zOffset d) r hr ⟨hmem, hmemb⟩ ?_
  intro j hj hpj hne
  by_cases hjroot : (s.blossoms.getD j default).isRoot = true
  · have hja := get_blossom_unique s hwf a hj hjroot hpj.1
    rw [ha] at hja
    exact absurd (Option.some_inj.mp hja.symm) hne
  · exact zOffset_nonroot hjroot

theorem zdiff_diff_root (s : DState) (hwf : WFState s) (d : Int) {a b : Nat}
    (hne : get_blossom s a ≠ get_blossom s b) :
    (s.blossoms.map
      (fun B => if a ∈ B.members ∧ b ∈ B.members then zOffset d B else 0)).sum = 0 := by
  refine sum_if_zero_of s.blossoms _ (zOffset d) (fun j hj hpj => ?_)
  by_cases hjroot : (s.blossoms.getD j default).isRoot = true
  · have h1 := get_blossom_unique s hwf a hj hjroot hpj.1
    have h2 := get_blossom_unique s hwf b hj hjroot hpj.2
    exact absurd (h1.trans h2.symm) hne
  · exact zOffset_nonroot hjroot

theorem zdiff_none (s : DState) (d : Int) {a b : Nat}
    (hga : get_blossom s a = none) :
    (s.blossoms.map
      (fun B => if a ∈ B.members ∧ b ∈ B.members then zOffset d B else 0)).sum = 0 := by
  refine sum_if_zero_of s.blossoms _ (zOffset d) (fun j hj hpj => ?_)
  by_cases hjroot : (s.blossoms.getD j default).isRoot = true
  · exact absurd ⟨hjroot, hpj.1⟩ (rootOfAux_none hga j hj)
  · exact zOffset_nonroot hjroot

theorem nodeLabel_none {s : DState} {v : Nat} (h : get_blossom s v = none) :
    nodeLabel s v = .free := by
  unfold nodeLabel
  rw [h]

theorem nodeLabel_some {s : DState} {v i : Nat} (h : get_blossom s v = some i) :
    nodeLabel s v = (blossomAt s i).label := by
  unfold nodeLabel
  rw [h]

theorem uAt_adjust_duVal (s : DState) (d : Int) (v : Nat) (hv : v < s.n) :
    uAt (adjust_by_delta s d) v = uAt s v + duVal d (nodeLabel s v) := by
  rw [uAt_adjust s d v hv]
  cases h : nodeLabel s v <;> simp [duVal] <;> ring

theorem edgeAt_mem (s : DState) (i : Nat) (hi : i < s.edges.length) :
    edgeAt s i ∈ s.edges := by
  rw [edgeAt, List.getD_eq_getElem?_getD, List.getElem?_eq_getElem hi]
  exact List.getElem_mem hi

theorem edge_slack_adjust_same (s : DState) (hwf : WFState s) (d : Int) (i : Nat)
    (hi : i < s.edges.length)
    (hsame : get_blossom s (edgeAt s i).1 = get_blossom s (edgeAt s i).2.1) :
    edge_slack (adjust_by_delta s d) i = edge_slack s i := by
  obtain ⟨ha, hb, hab, hw⟩ := hwf.2.2.1 (edgeAt s i) (edgeAt_mem s i hi)
  have hedge : edgeAt (adjust_by_delta s d) i = edgeAt s i := rfl
  unfold edge_slack
  rw [hedge, uAt_adjust_duVal s d _ ha, uAt_adjust_duVal s d _ hb, zPairSum_adjust]
  cases hga : get_blossom s (edgeAt s i).1 with
  | none =>
    have hgb : get_blossom s (edgeAt s i).2.1 = none := by rw [← hsame, hga]
    rw [zdiff_none s d hga, nodeLabel_none hga, nodeLabel_none hgb]
    simp [duVal]
  | some r =>
    have hgb : get_blossom s (edgeAt s i).2.1 = some r := by rw [← hsame, hga]
    obtain ⟨hr, hroot, _⟩ := get_blossom_mem_spec s hga
    rw [zdiff_same_root s hwf d hga hgb, nodeLabel_some hga, nodeLabel_some hgb]
    unfold zOffset
    rw [if_pos hroot]
    cases hl : (blossomAt s r).label <;> simp [duVal] <;> ring

theorem edge_slack_adjust_diff (s : DState) (hwf : WFState s) (d : Int) (i : Nat)
    (hi : i < s.edges.length)
    (hne : get_blossom s (edgeAt s i).1 ≠ get_blossom s (edgeAt s i).2.1) :
    edge_slack (adjust_by_delta s d) i
      = edge_slack s i + duVal d (nodeLabel s (edgeAt s i).1)
        + duVal d (nodeLabel s (edgeAt s i).2.1) := by
  obtain ⟨ha, hb, hab, hw⟩ := hwf.2.2.1 (edgeAt s i) (edgeAt_mem s i hi)
  have hedge : edgeAt (adjust_by_delta s d) i = edgeAt s i := rfl
  unfold edge_slack
  rw [hedge, uAt_adjust_duVal s d _ ha, uAt_adjust_duVal s d _ hb, zPairSum_adjust,
    zdiff_diff_root s hwf d hne]
  ring

theorem mem_optToList {o : Option Int} {x : Int} (h : x ∈ optToList o) :
    o = some x := by
  cases o with
  | none => cases h
  | some y => simp [optToList] at h; rw [h]

theorem optToList_mem {x : Int} : x ∈ optToList (some x) := by
  simp [optToList]

theorem calc_delta_le_delta1 (s : DState) {d m : Int}
    (hd : calc_delta s = some d) (h1 : calc_delta1 s = some m) : d ≤ m := by
  refine minOpt_le_of_mem hd ?_
  rw [h1]
  exact List.mem_append_left _ (List.mem_append_left _
    (List.mem_append_left _ optToList_mem))

theorem calc_delta_le_delta2 (s : DState) {d m : Int}
    (hd : calc_delta s = some d) (h2 : calc_delta2 s = some m) : d ≤ m := by
  refine minOpt_le_of_mem hd ?_
  rw [h2]
  exact List.mem_append_left _ (List.mem_append_left _
    (List.mem_append_right _ optToList_mem))

theorem calc_delta_le_delta3 (s : DState) {d m : Int}
    (hd : calc_delta s = some d) (h3 : calc_delta3 s = some m) : d ≤ m := by
  refine minOpt_le_of_mem hd ?_
  rw [h3]
  exact List.mem_append_left _ (List.mem_append_right _ optToList_mem)

theorem calc_delta_le_delta4 (s : DState) {d m : Int}
    (hd : calc_delta s = some d) (h4 : calc_delta4 s = some m) : d ≤ m := by
  refine minOpt_le_of_mem hd ?_
  rw [h4]
  exact List.mem_append_right _ optToList_mem

theorem delta_le_u (s : DState) {d : Int} (hd : calc_delta s = some d)
    {v : Nat} (hv : v < s.n) (hlab : (nodeLabel s v).isEven = true) :
    d ≤ uAt s v := by
  have hmem : uAt s v ∈
      ((List.range s.n).filter (fun v => (nodeLabel s v).isEven)).map (uAt s) :=
    List.mem_map_of_mem _ (List.mem_filter.mpr ⟨List.mem_range.mpr hv, hlab⟩)
  obtain ⟨m, hm⟩ := minOpt_isSome_of_mem hmem
  exact le_trans (calc_delta_le_delta1 s hd hm) (minOpt_le_of_mem hm hmem)

theorem delta_le_slack2 (s : DState) {d : Int} (hd : calc_delta s = some d)
    {i : Nat} (hi : i < s.edges.length) (hone : exactlyOneEven s i = true) :
    d ≤ edge_slack s i := by
  have hmem : edge_slack s i ∈
      ((List.range s.edges.length).filter (exactlyOneEven s)).map (edge_slack s) :=
    List.mem_map_of_mem _ (List.mem_filter.mpr ⟨List.mem_range.mpr hi, hone⟩)
  obtain ⟨m, hm⟩ := minOpt_isSome_of_mem hmem
  exact le_trans (calc_delta_le_delta2 s hd hm) (minOpt_le_of_mem hm hmem)

theorem delta_le_halfslack3 (s : DState) {d : Int} (hd : calc_delta s = some d)
    {i : Nat} (hi : i < s.edges.length) (hboth : bothEvenDiffRoot s i = true) :
    d ≤ edge_slack s i / 2 := by
  have hmem : edge_slack s i / 2 ∈
      ((List.range s.edges.length).filter (bothEvenDiffRoot s)).map
        (fun i => edge_slack s i / 2) :=
    List.mem_map_of_mem _ (List.mem_filter.mpr ⟨List.mem_range.mpr hi, hboth⟩)
  obtain ⟨m, hm⟩ := minOpt_isSome_of_mem hmem
  exact le_trans (calc_delta_le_delta3 s hd hm) (minOpt_le_of_mem hm hmem)

theorem delta_le_halfz4 (s : DState) {d : Int} (hd : calc_delta s = some d)
    {B : Blossom} (hB : B ∈ s.blossoms) (hroot : B.isRoot = true)
    (hodd : B.label.isOdd = true) (htriv : B.isTrivial = false) :
    d ≤ B.z / 2 := by
  have hmem : B.z / 2 ∈
      (s.blossoms.filter
        (fun B => B.isRoot && B.label.isOdd && !B.isTrivial)).map (fun B => B.z / 2) :=
    List.mem_map_of_mem _ (List.mem_filter.mpr ⟨hB, by rw [hroot, hodd, htriv]; rfl⟩)
  obtain ⟨m, hm⟩ := minOpt_isSome_of_mem hmem
  exact le_trans (calc_delta_le_delta4 s hd hm) (minOpt_le_of_mem hm hmem)

theorem two_mul_ediv_two_le (x : Int) : 2 * (x / 2) ≤ x := by
  have h := Int.ediv_add_emod x 2
  have h2 : 0 ≤ x % 2 := Int.emod_nonneg x (by norm_num)
  omega

theorem calc_delta_nonneg (s : DState) (hwf : WFState s) (hdf : DualFeasible s)
    (hu : UNonneg s) (hz : ZNonneg s) {d : Int} (hd : calc_delta s = some d) :
    0 ≤ d := by
  have hmem := minOpt_mem hd
  rw [List.mem_append, List.mem_append, List.mem_append] at hmem
  rcases hmem with ((hmem | hmem) | hmem) | hmem
  · have h1 := mem_optToList hmem
    have hm := minOpt_mem h1
    obtain ⟨v, hv, huv⟩ := List.mem_map.mp hm
    obtain ⟨hvr, _⟩ := List.mem_filter.mp hv
    rw [← huv]
    exact hu v (List.mem_range.mp hvr)
  · have h2 := mem_optToList hmem
    have hm := minOpt_mem h2
    obtain ⟨i, hif, hsl⟩ := List.mem_map.mp hm
    obtain ⟨hir, _⟩ := List.mem_filter.mp hif
    rw [← hsl]
    exact hdf i (List.mem_range.mp hir)
  · have h3 := mem_optToList hmem
    have hm := minOpt_mem h3
    obtain ⟨i, hif, hsl⟩ := List.mem_map.mp hm
    obtain ⟨hir, _⟩ := List.mem_filter.mp hif
    rw [← hsl]
    exact Int.ediv_nonneg (hdf i (List.mem_range.mp hir)) (by norm_num)
  · have h4 := mem_optToList hmem
    have hm := minOpt_mem h4
    obtain ⟨B, hBf, hBz⟩ := List.mem_map.mp hm
    obtain ⟨hBm, hBp⟩ := List.mem_filter.mp hBf
    rw [← hBz]
    have htriv : B.isTrivial = false := by
      rcases Bool.and_eq_true_iff.mp hBp with ⟨_, ht⟩
      simpa using ht
    have hlen : 2 ≤ B.members.length := by
      have hiff := hwf.2.2.2.2.2.2 B hBm
      by_contra hcon
      have : B.members.length < 2 := by omega
      rw [← hiff] at this
      rw [htriv] at this
      cases this
    exact Int.ediv_nonneg (hz B hBm hlen) (by norm_num)

theorem matchedAt_adjust (s : DState) (d : Int) (i : Nat) :
    matchedAt (adjust_by_delta s d) i = matchedAt s i := rfl

theorem edgeAt_adjust (s : DState) (d : Int) (i : Nat) :
    edgeAt (adjust_by_delta s d) i = edgeAt s i := rfl

theorem WFState_adjust (s : DState) (hwf : WFState s) (d : Int) :
    WFState (adjust_by_delta s d) := by
  obtain ⟨hul, hml, hedg, hex, huniq, hnd, htr⟩ := hwf
  refine ⟨?_, hml, hedg, ?_, ?_, ?_, ?_⟩
  · show (adjustU s d).length = s.n
    simp [adjustU]
  · intro v hv
    obtain ⟨i, hi, hroot, hmem⟩ := hex v hv
    refine ⟨i, ?_, ?_, ?_⟩
    · show i < (s.blossoms.map (adjustBlossom d)).length
      simpa using hi
    · rw [blossomAt_adjust_eq s d i hi, adjustBlossom_isRoot]
      exact hroot
    · rw [blossomAt_adjust_eq s d i hi, adjustBlossom_members]
      exact hmem
  · intro i j hi hj hij hri hrj v hvi
    have hi' : i < s.blossoms.length := by simpa [adjust_by_delta] using hi
    have hj' : j < s.blossoms.length := by simpa [adjust_by_delta] using hj
    rw [blossomAt_adjust_eq s d i hi', adjustBlossom_isRoot] at hri
    rw [blossomAt_adjust_eq s d j hj', adjustBlossom_isRoot] at hrj
    rw [blossomAt_adjust_eq s d i hi', adjustBlossom_members] at hvi
    rw [blossomAt_adjust_eq s d j hj', adjustBlossom_members]
    exact huniq i j hi' hj' hij hri hrj v hvi
  · intro B hB
    obtain ⟨C, hC, rfl⟩ := List.mem_map.mp hB
    rw [adjustBlossom_members]
    exact hnd C hC
  · intro B hB
    obtain ⟨C, hC, rfl⟩ := List.mem_map.mp hB
    rw [adjustBlossom_isTrivial, adjustBlossom_members]
    exact htr C hC

theorem DualFeasible_adjust (s : DState) (hwf : WFState s) (hdf : DualFeasible s)
    (hu : UNonneg s) (hz : ZNonneg s) {d : Int} (hd : calc_delta s = some d) :
    DualFeasible (adjust_by_delta s d) := by
  intro i hi
  have hi' : i < s.edges.length := hi
  by_cases hsame : get_blossom s (edgeAt s i).1 = get_blossom s (edgeAt s i).2.1
  · rw [edge_slack_adjust_same s hwf d i hi' hsame]
    exact hdf i hi'
  · rw [edge_slack_adjust_diff s hwf d i hi' hsame]
    have hd0 := calc_delta_nonneg s hwf hdf hu hz hd
    have hsl := hdf i hi'
    cases hA : nodeLabel s (edgeAt s i).1 with
    | even =>
      cases hB : nodeLabel s (edgeAt s i).2.1 with
      | even =>
        have hboth : bothEvenDiffRoot s i = true := by
          rw [bothEvenDiffRoot, hA, hB]
          simp [BlossomLabel.isEven, hsame]
        have h3 := delta_le_halfslack3 s hd hi' hboth
        simp only [duVal]
        omega
      | odd =>
        simp only [duVal]
        omega
      | free =>
        have hone : exactlyOneEven s i = true := by
          rw [exactlyOneEven, hA, hB]
          rfl
        have h2 := delta_le_slack2 s hd hi' hone
        simp only [duVal]
        omega
    | odd =>
      cases hB : nodeLabel s (edgeAt s i).2.1 with
      | even =>
        simp only [duVal]
        omega
      | odd =>
        simp only [duVal]
        omega
      | free =>
        simp only [duVal]
        omega
    | free =>
      cases hB : nodeLabel s (edgeAt s i).2.1 with
      | even =>
        have hone : exactlyOneEven s i = true := by
          rw [exactlyOneEven, hA, hB]
          rfl
        have h2 := delta_le_slack2 s hd hi' hone
        simp only [duVal]
        omega
      | odd =>
        simp only [duVal]
        omega
      | free =>
        simp only [duVal]
        omega

theorem MatchedTight_adjust (s : DState) (hwf : WFState s) (hmt : MatchedTight s)
    (hok : MatchedLabelOK s) (d : Int) :
    MatchedTight (adjust_by_delta s d) := by
  intro i hi hm
  have hi' : i < s.edges.length := hi
  have hm' : matchedAt s i = true := hm
  have hsl := hmt i hi' hm'
  by_cases hsame : get_blossom s (edgeAt s i).1 = get_blossom s (edgeAt s i).2.1
  · rw [edge_slack_adjust_same s hwf d i hi' hsame]
    exact hsl
  · rw [edge_slack_adjust_diff s hwf d i hi' hsame]
    rcases hok i hi' hm' with hs | ⟨h1, h2⟩ | ⟨h1, h2⟩ | ⟨h1, h2⟩
    · exact absurd hs hsame
    · rw [h1, h2]
      simp only [duVal]
      omega
    · rw [h1, h2]
      simp only [duVal]
      omega
    · rw [h1, h2]
      simp only [duVal]
      omega

theorem UNonneg_adjust (s : DState) (hwf : WFState s) (hdf : DualFeasible s)
    (hu : UNonneg s) (hz : ZNonneg s) {d : Int} (hd : calc_delta s = some d) :
    UNonneg (adjust_by_delta s d) := by
  intro v hv
  have hv' : v < s.n := hv
  rw [uAt_adjust_duVal s d v hv']
  have hd0 := calc_delta_nonneg s hwf hdf hu hz hd
  have hu0 := hu v hv'
  cases hL : nodeLabel s v with
  | even =>
    have h1 := delta_le_u s hd hv' (by rw [hL]; rfl)
    simp only [duVal]
    omega
  | odd =>
    simp only [duVal]
    omega
  | free =>
    simp only [duVal]
    omega

theorem ZNonneg_adjust (s : DState) (hwf : WFState s) (hdf : DualFeasible s)
    (hu : UNonneg s) (hz : ZNonneg s) {d : Int} (hd : calc_delta s = some d) :
    ZNonneg (adjust_by_delta s d) := by
  intro B' hB' hlen
  obtain ⟨B, hB, rfl⟩ := List.mem_map.mp hB'
  rw [adjustBlossom_members] at hlen
  rw [adjustBlossom_z]
  have hz0 := hz B hB hlen
  have hd0 := calc_delta_nonneg s hwf hdf hu hz hd
  unfold zOffset
  by_cases hroot : B.isRoot = true
  · rw [if_pos hroot]
    cases hL : B.label with
    | even =>
      show 0 ≤ B.z + 2 * d
      omega
    | odd =>
      show 0 ≤ B.z + -(2 * d)
      have htriv : B.isTrivial = false := by
        have hiff := hwf.2.2.2.2.2.2 B hB
        cases hbt : B.isTrivial
        · rfl
        · rw [hbt] at hiff
          have := hiff.mp rfl
          omega
      have h4 := delta_le_halfz4 s hd hB hroot (by rw [hL]; rfl) htriv
      omega
    | free =>
      show 0 ≤ B.z + 0
      omega
  · rw [if_neg hroot]
    omega

theorem MatchedLabelOK_adjust (s : DState) (hok : MatchedLabelOK s) (d : Int) :
    MatchedLabelOK (adjust_by_delta s d) := by
  intro i hi hm
  have h := hok i hi hm
  simpa only [edgeAt_adjust, get_blossom_adjust, nodeLabel_adjust] using h

theorem ValidMatching_adjust (s : DState) (hv : ValidMatching s) (d : Int) :
    ValidMatching (adjust_by_delta s d) := by
  intro i j hi hj hij hmi hmj
  have h := hv i j hi hj hij hmi hmj
  simpa only [edgeAt_adjust] using h

theorem DriverInv_adjust (s : DState) (hinv : DriverInv s) {d : Int}
    (hd : calc_delta s = some d) : DriverInv (adjust_by_delta s d) := by
  obtain ⟨hwf, hdf, hmt, hu, hz, hok, hvm⟩ := hinv
  exact ⟨WFState_adjust s hwf d, DualFeasible_adjust s hwf hdf hu hz hd,
    MatchedTight_adjust s hwf hmt hok d, UNonneg_adjust s hwf hdf hu hz hd,
    ZNonneg_adjust s hwf hdf hu hz hd, MatchedLabelOK_adjust s hok d,
    ValidMatching_adjust s hvm d⟩

theorem getD_eq_getElem {α : Type} [Inhabited α] (l : List α) (i : Nat)
    (hi : i < l.length) : l.getD i default = l[i] := by
  rw [List.getD_eq_getElem?_getD, List.getElem?_eq_getElem hi]
  rfl

theorem mem_of_getD {α : Type} [Inhabited α] {l : List α} {i : Nat}
    (hi : i < l.length) : l.getD i default ∈ l := by
  rw [getD_eq_getElem l i hi]
  exact List.getElem_mem hi

theorem mem_iff_getD {α : Type} [Inhabited α] {l : List α} {x : α} :
    x ∈ l ↔ ∃ i, i < l.length ∧ l.getD i default = x := by
  constructor
  · intro hx
    obtain ⟨i, hi, hEq⟩ := List.mem_iff_getElem.mp hx
    exact ⟨i, hi, by rw [getD_eq_getElem l i hi, hEq]⟩
  · rintro ⟨i, hi, rfl⟩
    exact mem_of_getD hi

theorem sum_map_pointwise {α : Type} [Inhabited α] (l l' : List α) (f : α → Int)
    (hlen : l'.length = l.length)
    (h : ∀ i, i < l.length → f (l'.getD i default) = f (l.getD i default)) :
    (l'.map f).sum = (l.map f).sum := by
  induction l generalizing l' with
  | nil =>
    cases l' with
    | nil => rfl
    | cons z zs => simp at hlen
  | cons y ys ih =>
    cases l' with
    | nil => simp at hlen
    | cons z zs =>
      simp only [List.map_cons, List.sum_cons]
      rw [show f z = f y from by simpa using h 0 (by simp)]
      rw [ih zs (by simpa using hlen)
        (fun i hi => by simpa using h (i + 1) (by simpa using hi))]

theorem zps_cons (a b : Nat) (p : List Nat × Int) (l : List (List Nat × Int)) :
    zps a b (p :: l)
      = (if a ∈ p.1 ∧ b ∈ p.1 then p.2 else 0) + zps a b l := by
  simp [zps]

theorem edge_slack_relabel (s : DState) (bl' : List Blossom)
    (hsame : SameButLabels s.blossoms bl') (i : Nat) :
    edge_slack { s with blossoms := bl' } i = edge_slack s i := by
  unfold edge_slack
  have hz : ∀ a b : Nat, zPairSum { s with blossoms := bl' } a b = zPairSum s a b := by
    intro a b
    rw [zPairSum_eq, zPairSum_eq]
    exact sum_map_pointwise s.blossoms bl' _ hsame.1 (fun j hj => by
      obtain ⟨hm, hzq, _, _⟩ := hsame.2 j hj
      simp only [hm, hzq])
  rw [hz]
  rfl

theorem DriverInv_relabel (s : DState) (bl' : List Blossom)
    (hsame : SameButLabels s.blossoms bl')
    (hok : MatchedLabelOK { s with blossoms := bl' })
    (hwf : WFState { s with blossoms := bl' })
    (hinv : DriverInv s) : DriverInv { s with blossoms := bl' } := by
  obtain ⟨_, hdf, hmt, hu, hz, _, hvm⟩ := hinv
  refine ⟨hwf, ?_, ?_, hu, ?_, hok, ?_⟩
  · intro i hi
    rw [edge_slack_relabel s bl' hsame i]
    exact hdf i hi
  · intro i hi hm
    rw [edge_slack_relabel s bl' hsame i]
    exact hmt i hi hm
  · intro B' hB' hlen
    obtain ⟨j, hj', hEq⟩ := mem_iff_getD.mp hB'
    have hj : j < s.blossoms.length := by
      rw [← hsame.1]
      exact hj'
    obtain ⟨hm, hzq, _, _⟩ := hsame.2 j hj
    rw [← hEq, hzq]
    rw [← hEq, hm] at hlen
    exact hz (s.blossoms.getD j default) (mem_of_getD hj) hlen
  · intro i j hi hj hij hmi hmj
    exact hvm i j hi hj hij hmi hmj

theorem DriverInv_augment (s : DState) (m' : List Bool)
    (hlen : m'.length = s.edges.length)
    (htight : ∀ i, i < s.edges.length → m'.getD i false = true →
      edge_slack s i = 0)
    (hvalid : ValidMatching { s with is_in_matching := m' })
    (hok : MatchedLabelOK { s with is_in_matching := m' })
    (hinv : DriverInv s) : DriverInv { s with is_in_matching := m' } := by
  obtain ⟨⟨hul, hml, hedg, hex, huniq, hnd, htr⟩, hdf, hmt, hu, hz, _, _⟩ := hinv
  have hslack : ∀ i, edge_slack { s with is_in_matching := m' } i = edge_slack s i :=
    fun i => rfl
  refine ⟨⟨hul, hlen, hedg, hex, huniq, hnd, htr⟩, ?_, ?_, hu, hz, hok, hvalid⟩
  · intro i hi
    rw [hslack i]
    exact hdf i hi
  · intro i hi hm
    rw [hslack i]
    exact htight i hi hm

theorem DriverInv_contract (s : DState) (bl' : List Blossom) (B : Blossom)
    (hz0 : B.z = 0)
    (hproj : bl'.map projB = projB B :: s.blossoms.map projB)
    (hwf : WFState { s with blossoms := bl' })
    (hok : MatchedLabelOK { s with blossoms := bl' })
    (hinv : DriverInv s) : DriverInv { s with blossoms := bl' } := by
  obtain ⟨_, hdf, hmt, hu, hz, _, hvm⟩ := hinv
  have hzp : ∀ a b : Nat, zPairSum { s with blossoms := bl' } a b = zPairSum s a b := by
    intro a b
    show zps a b (bl'.map projB) = zps a b (s.blossoms.map projB)
    rw [hproj, zps_cons]
    have : (if a ∈ (projB B).1 ∧ b ∈ (projB B).1 then (projB B).2 else 0) = 0 := by
      split
      · show B.z = 0
        exact hz0
      · rfl
    rw [this]
    ring
  have hslack : ∀ i, edge_slack { s with blossoms := bl' } i = edge_slack s i := by
    intro i
    unfold edge_slack
    rw [hzp]
    rfl
  refine ⟨hwf, ?_, ?_, hu, ?_, hok, ?_⟩
  · intro i hi
    rw [hslack i]
    exact hdf i hi
  · intro i hi hm
    rw [hslack i]
    exact hmt i hi hm
  · intro B' hB' hlen
    have hpm : projB B' ∈ projB B :: s.blossoms.map projB := by
      rw [← hproj]
      exact List.mem_map_of_mem projB hB'
    rcases List.mem_cons.mp hpm with hEq | hmem
    · have hmem_eq : B'.members = B.members ∧ B'.z = B.z := by
        have h1 := congrArg Prod.fst hEq
        have h2 := congrArg Prod.snd hEq
        exact ⟨h1, h2⟩
      rw [hmem_eq.2, hz0]
    · obtain ⟨C, hC, hCEq⟩ := List.mem_map.mp hmem
      have h1 : C.members = B'.members := congrArg Prod.fst hCEq
      have h2 : C.z = B'.z := congrArg Prod.snd hCEq
      rw [← h2]
      rw [← h1] at hlen
      exact hz C hC hlen
  · intro i j hi hj hij hmi hmj
    exact hvm i j hi hj hij hmi hmj

theorem DriverInv_expand (s : DState) (bl' : List Blossom) (B : Blossom)
    (hz0 : B.z = 0)
    (hproj : s.blossoms.map projB = projB B :: bl'.map projB)
    (hwf : WFState { s with blossoms := bl' })
    (hok : MatchedLabelOK { s with blossoms := bl' })
    (hinv : DriverInv s) : DriverInv { s with blossoms := bl' } := by
  obtain ⟨_, hdf, hmt, hu, hz, _, hvm⟩ := hinv
  have hzp : ∀ a b : Nat, zPairSum { s with blossoms := bl' } a b = zPairSum s a b := by
    intro a b
    show zps a b (bl'.map projB) = zps a b (s.blossoms.map projB)
    rw [hproj, zps_cons]
    have : (if a ∈ (projB B).1 ∧ b ∈ (projB B).1 then (projB B).2 else 0) = 0 := by
      split
      · show B.z = 0
        exact hz0
      · rfl
    rw [this]
    ring
  have hslack : ∀ i, edge_slack { s with blossoms := bl' } i = edge_slack s i := by
    intro i
    unfold edge_slack
    rw [hzp]
    rfl
  refine ⟨hwf, ?_, ?_, hu, ?_, hok, ?_⟩
  · intro i hi
    rw [hslack i]
    exact hdf i hi
  · intro i hi hm
    rw [hslack i]
    exact hmt i hi hm
  · intro B' hB' hlen
    have hpm : projB B' ∈ s.blossoms.map projB := by
      rw [hproj]
      exact List.mem_cons_of_mem _ (List.mem_map_of_mem projB hB')
    obtain ⟨C, hC, hCEq⟩ := List.mem_map.mp hpm
    have h1 : C.members = B'.members := congrArg Prod.fst hCEq
    have h2 : C.z = B'.z := congrArg Prod.snd hCEq
    rw [← h2]
    rw [← h1] at hlen
    exact hz C hC hlen
  · intro i j hi hj hij hmi hmj
    exact hvm i j hi hj hij hmi hmj

theorem DriverInv_step {s s' : DState} (hinv : DriverInv s) (hstep : DStep s s') :
    DriverInv s' := by
  cases hstep with
  | adjust d hd => exact DriverInv_adjust s hinv hd
  | relabel bl' hsame hok hwf => exact DriverInv_relabel s bl' hsame hok hwf hinv
  | augment m' hlen htight hvalid hok =>
    exact DriverInv_augment s m' hlen htight hvalid hok hinv
  | contract bl' B hz0 hproj hwf hok =>
    exact DriverInv_contract s bl' B hz0 hproj hwf hok hinv
  | expand bl' B hz0 hproj hwf hok =>
    exact DriverInv_expand s bl' B hz0 hproj hwf hok hinv

theorem uAt_init (g : WGraph) (v : Nat) (hv : v < g.n) :
    uAt (initState g) v = uInit g := by
  show (List.replicate g.n (uInit g)).getD v 0 = uInit g
  rw [List.getD_eq_getElem?_getD, List.getElem?_replicate]
  simp [hv]

theorem matchedAt_init (g : WGraph) (i : Nat) :
    matchedAt (initState g) i = false := by
  show (List.replicate g.edges.length false).getD i false = false
  rw [List.getD_eq_getElem?_getD, List.getElem?_replicate]
  split <;> rfl

theorem blossomAt_init (g : WGraph) (v : Nat) (hv : v < g.n) :
    blossomAt (initState g) v = trivialBlossom v := by
  show ((List.range g.n).map trivialBlossom).getD v default = trivialBlossom v
  rw [getD_map_range g.n trivialBlossom v default hv]

theorem mem_init_blossoms {g : WGraph} {B : Blossom}
    (hB : B ∈ (initState g).blossoms) : ∃ v, v < g.n ∧ B = trivialBlossom v := by
  obtain ⟨v, hv, rfl⟩ := List.mem_map.mp hB
  exact ⟨v, List.mem_range.mp hv, rfl⟩

theorem zPairSum_init (g : WGraph) (a b : Nat) :
    zPairSum (initState g) a b = 0 := by
  rw [zPairSum_eq]
  refine sum_map_zero_of _ _ (fun B hB => ?_)
  obtain ⟨v, hv, rfl⟩ := mem_init_blossoms hB
  show (if a ∈ [v] ∧ b ∈ [v] then (0 : Int) else 0) = 0
  split <;> rfl

theorem maxWeight_nonneg (g : WGraph) (hg : GraphWF g) : 0 ≤ maxWeight g := by
  unfold maxWeight
  cases hm : maxOpt (g.edges.map (fun e => e.2.2)) with
  | none => simp
  | some m =>
    obtain ⟨e, he, hEq⟩ := List.mem_map.mp (maxOpt_mem hm)
    have := (hg e he).2.2.2
    simp only [Option.getD_some]
    omega

theorem weight_le_maxWeight (g : WGraph) {e : Nat × Nat × Int} (he : e ∈ g.edges) :
    e.2.2 ≤ maxWeight g := by
  have hmem : e.2.2 ∈ g.edges.map (fun e => e.2.2) := List.mem_map_of_mem _ he
  obtain ⟨m, hm⟩ := maxOpt_isSome_of_mem hmem
  unfold maxWeight
  rw [hm]
  simpa using le_maxOpt_of_mem hm hmem

theorem DriverInv_init (g : WGraph) (hg : GraphWF g) : DriverInv (initState g) := by
  have huinit : 0 ≤ uInit g := by
    have := maxWeight_nonneg g hg
    unfold uInit
    omega
  refine ⟨⟨?_, ?_, ?_, ?_, ?_, ?_, ?_⟩, ?_, ?_, ?_, ?_, ?_, ?_⟩
  · simp [initState]
  · simp [initState]
  · exact hg
  · intro v hv
    refine ⟨v, ?_, ?_, ?_⟩
    · show v < ((List.range g.n).map trivialBlossom).length
      simpa using hv
    · rw [blossomAt_init g v hv]
      rfl
    · rw [blossomAt_init g v hv]
      show v ∈ [v]
      simp
  · intro i j hi hj hij hri hrj v hvi
    have hi' : i < g.n := by simpa [initState] using hi
    have hj' : j < g.n := by simpa [initState] using hj
    rw [blossomAt_init g i hi'] at hvi
    rw [blossomAt_init g j hj']
    have hvi' : v = i := by simpa [trivialBlossom] using hvi
    intro hvj
    have hvj' : v = j := by simpa [trivialBlossom] using hvj
    exact hij (hvi'.symm.trans hvj')
  · intro B hB
    obtain ⟨v, hv, rfl⟩ := mem_init_blossoms hB
    simp [trivialBlossom]
  · intro B hB
    obtain ⟨v, hv, rfl⟩ := mem_init_blossoms hB
    simp [trivialBlossom]
  · intro i hi
    have hi' : i < g.edges.length := by simpa [initState] using hi
    unfold edge_slack
    rw [zPairSum_init]
    have hmem : edgeAt (initState g) i ∈ g.edges := by
      have := edgeAt_mem (initState g) i hi
      simpa [initState] using this
    obtain ⟨ha, hb, hab, hw⟩ := hg _ hmem
    rw [uAt_init g _ ha, uAt_init g _ hb]
    have hle := weight_le_maxWeight g hmem
    unfold uInit
    omega
  · intro i hi hm
    rw [matchedAt_init] at hm
    cases hm
  · intro v hv
    have hv' : v < g.n := hv
    rw [uAt_init g v hv']
    exact huinit
  · intro B hB hlen
    obtain ⟨v, hv, rfl⟩ := mem_init_blossoms hB
    show (0 : Int) ≤ 0
    exact le_refl 0
  · intro i hi hm
    rw [matchedAt_init] at hm
    cases hm
  · intro i j hi hj hij hmi hmj
    rw [matchedAt_init] at hmi
    cases hmi

theorem DriverInv_reachable {g : WGraph} {s : DState} (hg : GraphWF g)
    (hr : Reachable g s) : DriverInv s := by
  induction hr with
  | init => exact DriverInv_init g hg
  | step hr hstep ih => exact DriverInv_step ih hstep

/-- C3: when a weighted run terminates (the dual adjustment picks
    delta = delta1), dual feasibility holds: every edge has slack at
    least 0 and every matched edge has slack exactly 0. -/
theorem dual_feasibility_at_termination (g : WGraph) (s : DState)
    (hg : GraphWF g) (hr : Reachable g s) (ht : weightedStop s = true) :
    (∀ i, i < s.edges.length → 0 ≤ edge_slack s i) ∧
    (∀ i, i < s.edges.length → matchedAt s i = true → edge_slack s i = 0) := by
  have hinv := DriverInv_reachable hg hr
  exact ⟨hinv.2.1, hinv.2.2.1⟩

theorem dual_feasibility_at_termination_witness :
    (∀ i, i < (initState ⟨1, []⟩).edges.length →
      0 ≤ edge_slack (initState ⟨1, []⟩) i) ∧
    (∀ i, i < (initState ⟨1, []⟩).edges.length →
      matchedAt (initState ⟨1, []⟩) i = true →
      edge_slack (initState ⟨1, []⟩) i = 0) :=
  dual_feasibility_at_termination ⟨1, []⟩ (initState ⟨1, []⟩)
    (by unfold GraphWF; decide) Reachable.init (by decide)

theorem matchedEdgeOf_spec {s : DState} {a i : Nat}
    (h : matchedEdgeOf s a = some i) :
    i < s.edges.length ∧ matchedAt s i = true ∧
      (a = (edgeAt s i).1 ∨ a = (edgeAt s i).2.1) := by
  unfold matchedEdgeOf at h
  have hmem := List.mem_of_find?_eq_some h
  have hp := List.find?_some h
  rcases Bool.and_eq_true_iff.mp hp with ⟨h1, h2⟩
  refine ⟨List.mem_range.mp hmem, h1, ?_⟩
  rcases Bool.or_eq_true_iff.mp h2 with h3 | h3
  · left
    exact eq_of_beq h3
  · right
    exact eq_of_beq h3

theorem matchedEdgeOf_eq_none_iff {s : DState} {a : Nat} :
    matchedEdgeOf s a = none ↔
      ∀ i, i < s.edges.length → matchedAt s i = true →
        a ≠ (edgeAt s i).1 ∧ a ≠ (edgeAt s i).2.1 := by
  unfold matchedEdgeOf
  rw [List.find?_eq_none]
  constructor
  · intro h i hi hm
    have := h i (List.mem_range.mpr hi)
    constructor
    · intro hEq
      exact this (by rw [hm, hEq]; simp)
    · intro hEq
      exact this (by rw [hm, hEq]; simp)
  · intro h i hi
    intro hp
    rcases Bool.and_eq_true_iff.mp hp with ⟨h1, h2⟩
    have := h i (List.mem_range.mp hi) h1
    rcases Bool.or_eq_true_iff.mp h2 with h3 | h3
    · exact this.1 (eq_of_beq h3)
    · exact this.2 (eq_of_beq h3)

theorem matchedEdgeOf_isSome {s : DState} {a i : Nat} (hi : i < s.edges.length)
    (hm : matchedAt s i = true)
    (ha : a = (edgeAt s i).1 ∨ a = (edgeAt s i).2.1) :
    ∃ j, matchedEdgeOf s a = some j := by
  cases h : matchedEdgeOf s a with
  | none =>
    exfalso
    rw [matchedEdgeOf_eq_none_iff] at h
    have := h i hi hm
    tauto
  | some j => exact ⟨j, rfl⟩

theorem matched_incident_unique (s : DState) (hvm : ValidMatching s)
    {i j a : Nat} (hi : i < s.edges.length) (hj : j < s.edges.length)
    (hmi : matchedAt s i = true) (hmj : matchedAt s j = true)
    (hai : a = (edgeAt s i).1 ∨ a = (edgeAt s i).2.1)
    (haj : a = (edgeAt s j).1 ∨ a = (edgeAt s j).2.1) : i = j := by
  by_contra hij
  obtain ⟨h1, h2, h3, h4⟩ := hvm i j hi hj hij hmi hmj
  rcases hai with ha | ha <;> rcases haj with hb | hb <;>
    rw [ha] at hb <;> tauto

/-- C2: after any run of the driver, the matching map is symmetric
    (a maps to b iff b maps to a) and partial-matching-shaped: a node
    is absent from the map exactly when no matched edge is incident to
    it, so no node is matched to more than one partner. -/
theorem getMatching_symmetric (g : WGraph) (s : DState) (hg : GraphWF g)
    (hr : Reachable g s) :
    (∀ a b, getMatching s a = some b ↔ getMatching s b = some a) ∧
    (∀ a, getMatching s a = none ↔
      ∀ i, i < s.edges.length → matchedAt s i = true →
        a ≠ (edgeAt s i).1 ∧ a ≠ (edgeAt s i).2.1) := by
  have hinv := DriverInv_reachable hg hr
  have hvm : ValidMatching s := hinv.2.2.2.2.2.2
  have hedg := hinv.1.2.2.1
  have hdir : ∀ a b, getMatching s a = some b → getMatching s b = some a := by
    intro a b hab
    unfold getMatching at hab ⊢
    cases h : matchedEdgeOf s a with
    | none => rw [h] at hab; cases hab
    | some i =>
      rw [h] at hab
      obtain ⟨hi, hmi, hai⟩ := matchedEdgeOf_spec h
      have hne : (edgeAt s i).1 ≠ (edgeAt s i).2.1 := by
        have hmem : edgeAt s i ∈ s.edges := by
          have := edgeAt_mem s i hi
          exact this
        exact (hedg _ hmem).2.2.1
      have hb : b = if a = (edgeAt s i).1 then (edgeAt s i).2.1 else (edgeAt s i).1 := by
        simpa using hab.symm
      have hbi : b = (edgeAt s i).1 ∨ b = (edgeAt s i).2.1 := by
        rw [hb]
        split
        · right; rfl
        · left; rfl
      obtain ⟨j, hj⟩ := matchedEdgeOf_isSome hi hmi hbi
      obtain ⟨hjlen, hmj, hbj⟩ := matchedEdgeOf_spec hj
      have hji : j = i := matched_incident_unique s hvm hjlen hi hmj hmi hbj hbi
      rw [hj, hji]
      show some (if b = (edgeAt s i).1 then (edgeAt s i).2.1 else (edgeAt s i).1)
        = some a
      by_cases hae : a = (edgeAt s i).1
      · have hbv : b = (edgeAt s i).2.1 := by rw [hb, if_pos hae]
        rw [if_neg (by rw [hbv]; exact fun hc => hne hc.symm)]
        rw [hae]
      · have hav : a = (edgeAt s i).2.1 := by tauto
        have hbv : b = (edgeAt s i).1 := by rw [hb, if_neg hae]
        rw [if_pos hbv, hav]
  constructor
  · intro a b
    exact ⟨hdir a b, hdir b a⟩
  · intro a
    unfold getMatching
    cases h : matchedEdgeOf s a with
    | none =>
      simp only []
      constructor
      · intro _
        exact matchedEdgeOf_eq_none_iff.mp h
      · intro _
        trivial
    | some i =>
      simp only []
      constructor
      · intro hc
        cases hc
      · intro hall
        obtain ⟨_, hmi, hai⟩ := matchedEdgeOf_spec h
        have := hall i (matchedEdgeOf_spec h).1 hmi
        tauto

theorem getMatching_symmetric_witness :
    (∀ a b, getMatching (initState ⟨2, [(0, 1, 2)]⟩) a = some b ↔
      getMatching (initState ⟨2, [(0, 1, 2)]⟩) b = some a) ∧
    (∀ a, getMatching (initState ⟨2, [(0, 1, 2)]⟩) a = none ↔
      ∀ i, i < (initState ⟨2, [(0, 1, 2)]⟩).edges.length →
        matchedAt (initState ⟨2, [(0, 1, 2)]⟩) i = true →
        a ≠ (edgeAt (initState ⟨2, [(0, 1, 2)]⟩) i).1 ∧
        a ≠ (edgeAt (initState ⟨2, [(0, 1, 2)]⟩) i).2.1) :=
  getMatching_symmetric ⟨2, [(0, 1, 2)]⟩ (initState ⟨2, [(0, 1, 2)]⟩)
    (by unfold GraphWF; decide) Reachable.init

theorem labelOddEven_matching (s : DState) (b : Nat) (e : EdgeInfo) :
    (labelOddEven s b e).is_in_matching = s.is_in_matching := by
  unfold labelOddEven
  cases h1 : matchedEdgeOf s (blossomAt s b).base with
  | none => simp only [h1]
  | some i =>
    simp only [h1]
    cases h2 : rootOfAux
        (if (blossomAt s b).base = (edgeAt s i).1 then (edgeAt s i).2.1
          else (edgeAt s i).1)
        (setLabelBt s.blossoms b BlossomLabel.odd (some e)) with
    | none => simp only [h2]
    | some bm => simp only [h2]

theorem contractCycle_matching (s : DState) (cyc : List Nat) (lca : Nat) :
    (contractCycle s cyc lca).is_in_matching = s.is_in_matching := rfl

theorem flipEdge_length (m : List Bool) (i : Nat) :
    (flipEdge m i).length = m.length := by
  simp [flipEdge]

theorem foldl_flipEdge_length (ids : List Nat) (m : List Bool) :
    (ids.foldl flipEdge m).length = m.length := by
  induction ids generalizing m with
  | nil => rfl
  | cons x xs ih => rw [List.foldl_cons, ih, flipEdge_length]

theorem getD_set_self (m : List Bool) (i : Nat) (b : Bool) (hi : i < m.length) :
    (m.set i b).getD i false = b := by
  induction m generalizing i with
  | nil => cases hi
  | cons y ys ih =>
    cases i with
    | zero => rfl
    | succ i' => exact ih i' (by simpa using hi)

theorem getD_set_ne (m : List Bool) (i j : Nat) (b : Bool) (hij : i ≠ j) :
    (m.set i b).getD j false = m.getD j false := by
  induction m generalizing i j with
  | nil => rfl
  | cons y ys ih =>
    cases i with
    | zero =>
      cases j with
      | zero => exact absurd rfl hij
      | succ j' => rfl
    | succ i' =>
      cases j with
      | zero => rfl
      | succ j' => exact ih i' j' (fun hc => hij (by rw [hc]))

theorem foldl_flip_preserve (ids : List Nat) (m : List Bool) (j : Nat)
    (h : ∀ x ∈ ids, x ≠ j) :
    (ids.foldl flipEdge m).getD j false = m.getD j false := by
  induction ids generalizing m with
  | nil => rfl
  | cons x xs ih =>
    rw [List.foldl_cons, ih (flipEdge m x) (fun y hy => h y (List.mem_cons_of_mem x hy))]
    unfold flipEdge
    exact getD_set_ne m x j _ (h x (List.mem_cons_self x xs))

theorem btIds_ne (s : DState) (path : List Nat) (k : Nat)
    (hbt : ∀ B ∈ s.blossoms, ∀ be, B.backtrackEdge = some be → be.id ≠ k) :
    ∀ x ∈ btIds s path, x ≠ k := by
  intro x hx
  obtain ⟨b, hb, hfb⟩ := List.mem_filterMap.mp hx
  cases hbe : (blossomAt s b).backtrackEdge with
  | none => rw [hbe] at hfb; cases hfb
  | some be =>
    rw [hbe] at hfb
    simp at hfb
    by_cases hblen : b < s.blossoms.length
    · have hmem : blossomAt s b ∈ s.blossoms := blossomAt_mem s b hblen
      rw [← hfb]
      exact hbt _ hmem be hbe
    · exfalso
      have : blossomAt s b = default := by
        rw [blossomAt, List.getD_eq_getElem?_getD, List.getElem?_eq_none (by omega)]
        rfl
      rw [this] at hbe
      cases hbe

/-- C7: a consider_edge call whose endpoints lie in the same root
    blossom, or whose root blossoms are both labeled free, leaves the
    entire algorithm state (matching, blossom forest, labels, duals)
    unchanged and returns false. -/
theorem consider_edge_ignore_frame (s : DState) (e : EdgeInfo)
    (h : get_blossom s e.u = get_blossom s e.v ∨
      (nodeLabel s e.u = .free ∧ nodeLabel s e.v = .free)) :
    consider_edge s e = (s, false) := by
  unfold consider_edge
  cases hu : get_blossom s e.u with
  | none => rfl
  | some bu =>
    cases hv : get_blossom s e.v with
    | none => rfl
    | some bv =>
      have hcond : bu = bv ∨
          ((blossomAt s bu).label = .free ∧ (blossomAt s bv).label = .free) := by
        rcases h with hEq | ⟨hfu, hfv⟩
        · left
          rw [hu, hv] at hEq
          exact Option.some_inj.mp hEq
        · right
          rw [nodeLabel_some hu] at hfu
          rw [nodeLabel_some hv] at hfv
          exact ⟨hfu, hfv⟩
      simp only [if_pos hcond]

theorem consider_edge_ignore_frame_witness :
    consider_edge egStateFree ⟨0, 1, 0⟩ = (egStateFree, false) :=
  consider_edge_ignore_frame egStateFree ⟨0, 1, 0⟩ (Or.inr ⟨by decide, by decide⟩)

/-- C6: during a substage, a consider_edge call returns true if and
    only if it performed an augmentation, that is, iff it changed the
    matching; calls that only ignore, relabel blossoms or create a new
    blossom return false and leave the matching untouched. -/
theorem consider_edge_true_iff_augment (g : WGraph) (s : DState) (e : EdgeInfo)
    (hg : GraphWF g) (hr : Reachable g s)
    (hid : e.id < s.edges.length)
    (hend1 : (edgeAt s e.id).1 = e.u) (hend2 : (edgeAt s e.id).2.1 = e.v) :
    ((consider_edge s e).2 = true ↔
      (consider_edge s e).1.is_in_matching ≠ s.is_in_matching) := by
  have hinv := DriverInv_reachable hg hr
  have hok := hinv.2.2.2.2.2.1
  have hml : s.is_in_matching.length = s.edges.length := hinv.1.2.1
  unfold consider_edge
  cases hu : get_blossom s e.u with
  | none =>
    simp
  | some bu =>
    cases hv : get_blossom s e.v with
    | none => simp
    | some bv =>
      by_cases hig : bu = bv ∨
          ((blossomAt s bu).label = .free ∧ (blossomAt s bv).label = .free)
      · simp only [if_pos hig]
        simp
      · simp only [if_neg hig]
        by_cases h2 : (blossomAt s bu).label = .even ∧ (blossomAt s bv).label = .free
        · simp only [if_pos h2]
          simp [labelOddEven_matching]
        · simp only [if_neg h2]
          by_cases h3 : (blossomAt s bu).label = .free ∧ (blossomAt s bv).label = .even
          · simp only [if_pos h3]
            simp [labelOddEven_matching]
          · simp only [if_neg h3]
            by_cases h4 : (blossomAt s bu).label = .even ∧ (blossomAt s bv).label = .even
            · simp only [if_pos h4]
              cases hfc : firstCommon (rootPath s bu) (rootPath s bv) with
              | some lca =>
                simp [contractCycle_matching]
              | none =>
                have hmf : matchedAt s e.id = false := by
                  cases hmc : matchedAt s e.id with
                  | false => rfl
                  | true =>
                    exfalso
                    rcases hok e.id hid hmc with hs | ⟨ha, hb⟩ | ⟨ha, hb⟩ | ⟨ha, hb⟩
                    · rw [hend1, hend2, hu, hv] at hs
                      exact hig (Or.inl (Option.some_inj.mp hs))
                    · rw [hend2, nodeLabel_some hv] at hb
                      rw [hb] at h4
                      exact absurd h4.2 (by decide)
                    · rw [hend1, nodeLabel_some hu] at ha
                      rw [ha] at h4
                      exact absurd h4.1 (by decide)
                    · rw [hend1, nodeLabel_some hu] at ha
                      rw [ha] at h4
                      exact absurd h4.1 (by decide)
                have hne : (augmentAlong s (rootPath s bu) (rootPath s bv) e).is_in_matching
                    ≠ s.is_in_matching := by
                  intro hEq
                  have hlen1 : e.id <
                      ((btIds s (rootPath s bu) ++ btIds s (rootPath s bv)).foldl
                        flipEdge s.is_in_matching).length := by
                    rw [foldl_flipEdge_length, hml]
                    exact hid
                  have hnew : (augmentAlong s (rootPath s bu) (rootPath s bv) e).is_in_matching.getD
                      e.id false = true := by
                    show (((btIds s (rootPath s bu) ++ btIds s (rootPath s bv)).foldl
                        flipEdge s.is_in_matching).set e.id true).getD e.id false = true
                    exact getD_set_self _ e.id true hlen1
                  rw [hEq] at hnew
                  have hold : matchedAt s e.id = true := hnew
                  rw [hmf] at hold
                  cases hold
                simp [hne]
            · simp only [if_neg h4]
              simp

theorem consider_edge_true_iff_augment_witness :
    ((consider_edge (initState ⟨2, [(0, 1, 2)]⟩) ⟨0, 1, 0⟩).2 = true ↔
      (consider_edge (initState ⟨2, [(0, 1, 2)]⟩) ⟨0, 1, 0⟩).1.is_in_matching
        ≠ (initState ⟨2, [(0, 1, 2)]⟩).is_in_matching) :=
  consider_edge_true_iff_augment ⟨2, [(0, 1, 2)]⟩ (initState ⟨2, [(0, 1, 2)]⟩)
    ⟨0, 1, 0⟩ (by unfold GraphWF; decide) Reachable.init (by decide) (by decide)
    (by decide)

theorem runStages_spec (stage : DState → DState)
    (hc : ∀ t, weightedStop (stage t) = false →
      matchingSize t < matchingSize (stage t) ∧ (stage t).n = t.n ∧
      matchingSize (stage t) ≤ t.n) :
    ∀ (m : Nat) (s : DState), s.n + 1 - matchingSize s ≤ m →
      ∃ k, runStages stage hc s = iterStage stage (k + 1) s ∧
        weightedStop (iterStage stage (k + 1) s) = true ∧
        ∀ j, 1 ≤ j → j ≤ k → weightedStop (iterStage stage j s) = false := by
  intro m
  induction m with
  | zero =>
    intro s hs
    cases hstop : weightedStop (stage s) with
    | true =>
      refine ⟨0, ?_, hstop, ?_⟩
      · rw [runStages, dif_pos hstop]
        rfl
      · intro j hj1 hj2
        omega
    | false =>
      exfalso
      obtain ⟨h1, h2, h3⟩ := hc s hstop
      omega
  | succ m ih =>
    intro s hs
    cases hstop : weightedStop (stage s) with
    | true =>
      refine ⟨0, ?_, hstop, ?_⟩
      · rw [runStages, dif_pos hstop]
        rfl
      · intro j hj1 hj2
        omega
    | false =>
      obtain ⟨h1, h2, h3⟩ := hc s hstop
      obtain ⟨k', hrun, hstop', hearlier⟩ := ih (stage s) (by omega)
      refine ⟨k' + 1, ?_, hstop', ?_⟩
      · rw [runStages, dif_neg (by rw [hstop]; exact Bool.false_ne_true)]
        exact hrun
      · intro j hj1 hj2
        cases j with
        | zero => omega
        | succ j' =>
          cases j' with
          | zero => exact hstop
          | succ j'' => exact hearlier (j'' + 1) (by omega) (by omega)

theorem cardRun_spec (phase : DState → DState)
    (hc : ∀ t, matchingSize (phase t) ≠ matchingSize t →
      matchingSize t < matchingSize (phase t) ∧ (phase t).n = t.n ∧
      matchingSize (phase t) ≤ t.n) :
    ∀ (m : Nat) (s : DState), s.n + 1 - matchingSize s ≤ m →
      ∃ k, MicaliVaziraniMatching.run phase hc s = iterStage phase (k + 1) s ∧
        matchingSize (iterStage phase (k + 1) s) = matchingSize (iterStage phase k s) ∧
        ∀ j, j < k →
          matchingSize (iterStage phase (j + 1) s) ≠ matchingSize (iterStage phase j s) := by
  intro m
  induction m with
  | zero =>
    intro s hs
    by_cases hstop : matchingSize (phase s) = matchingSize s
    · refine ⟨0, ?_, hstop, ?_⟩
      · rw [MicaliVaziraniMatching.run, dif_pos hstop]
        rfl
      · intro j hj
        omega
    · exfalso
      obtain ⟨h1, h2, h3⟩ := hc s hstop
      omega
  | succ m ih =>
    intro s hs
    by_cases hstop : matchingSize (phase s) = matchingSize s
    · refine ⟨0, ?_, hstop, ?_⟩
      · rw [MicaliVaziraniMatching.run, dif_pos hstop]
        rfl
      · intro j hj
        omega
    · obtain ⟨h1, h2, h3⟩ := hc s hstop
      obtain ⟨k', hrun, hstop', hearlier⟩ := ih (phase s) (by omega)
      refine ⟨k' + 1, ?_, hstop', ?_⟩
      · rw [MicaliVaziraniMatching.run, dif_neg hstop]
        exact hrun
      · intro j hj
        cases j with
        | zero => exact hstop
        | succ j' => exact hearlier j' (by omega)

/-- C5: every run of the driver loop terminates.  A weighted run stops
    exactly with the first stage after which the dual adjustment picked
    delta = delta1 (no earlier stage did); a cardinality run stops
    exactly with the first phase that found no augmenting path (left
    the matching size unchanged); and the matching accessor applied to
    the returned state reads the computed terminal state, so subsequent
    queries return the computed matching. -/
theorem run_terminates :
    (∀ (stage : DState → DState)
      (hc : ∀ t, weightedStop (stage t) = false →
        matchingSize t < matchingSize (stage t) ∧ (stage t).n = t.n ∧
        matchingSize (stage t) ≤ t.n) (s : DState),
      ∃ k, runStages stage hc s = iterStage stage (k + 1) s ∧
        weightedStop (iterStage stage (k + 1) s) = true ∧
        (∀ j, 1 ≤ j → j ≤ k → weightedStop (iterStage stage j s) = false) ∧
        getMatching (runStages stage hc s)
          = getMatching (iterStage stage (k + 1) s)) ∧
    (∀ (phase : DState → DState)
      (hc : ∀ t, matchingSize (phase t) ≠ matchingSize t →
        matchingSize t < matchingSize (phase t) ∧ (phase t).n = t.n ∧
        matchingSize (phase t) ≤ t.n) (s : DState),
      ∃ k, MicaliVaziraniMatching.run phase hc s = iterStage phase (k + 1) s ∧
        matchingSize (iterStage phase (k + 1) s)
          = matchingSize (iterStage phase k s) ∧
        (∀ j, j < k → matchingSize (iterStage phase (j + 1) s)
          ≠ matchingSize (iterStage phase j s)) ∧
        getMatching (MicaliVaziraniMatching.run phase hc s)
          = getMatching (iterStage phase (k + 1) s)) := by
  constructor
  · intro stage hc s
    obtain ⟨k, hrun, hstop, hearlier⟩ :=
      runStages_spec stage hc (s.n + 1 - matchingSize s) s (le_refl _)
    exact ⟨k, hrun, hstop, hearlier, by rw [hrun]⟩
  · intro phase hc s
    obtain ⟨k, hrun, hstop, hearlier⟩ :=
      cardRun_spec phase hc (s.n + 1 - matchingSize s) s (le_refl _)
    exact ⟨k, hrun, hstop, hearlier, by rw [hrun]⟩

theorem run_terminates_witness :
    ∃ k, runStages (fun _ => initState ⟨1, []⟩)
        (fun t h => absurd (show weightedStop (initState ⟨1, []⟩) = false from h) (by decide)) (initState ⟨1, []⟩)
        = iterStage (fun _ => initState ⟨1, []⟩) (k + 1) (initState ⟨1, []⟩) ∧
      weightedStop (iterStage (fun _ => initState ⟨1, []⟩) (k + 1)
        (initState ⟨1, []⟩)) = true ∧
      (∀ j, 1 ≤ j → j ≤ k → weightedStop (iterStage (fun _ => initState ⟨1, []⟩) j
        (initState ⟨1, []⟩)) = false) ∧
      getMatching (runStages (fun _ => initState ⟨1, []⟩)
        (fun t h => absurd (show weightedStop (initState ⟨1, []⟩) = false from h) (by decide)) (initState ⟨1, []⟩))
        = getMatching (iterStage (fun _ => initState ⟨1, []⟩) (k + 1)
          (initState ⟨1, []⟩)) :=
  run_terminates.1 (fun _ => initState ⟨1, []⟩)
    (fun t h => absurd (show weightedStop (initState ⟨1, []⟩) = false from h) (by decide)) (initState ⟨1, []⟩)

theorem if_and_decide (P Q : Prop) [Decidable P] [Decidable Q] (x : Int) :
    (if P ∧ Q then x else 0) = (if (decide P && decide Q) = true then x else 0) := by
  by_cases hP : P <;> by_cases hQ : Q <;> simp [hP, hQ]

theorem mem_endNodes {s : DState} {M : List Nat} {x : Nat} :
    x ∈ endNodes s M ↔
      ∃ i ∈ M, x = (edgeAt s i).1 ∨ x = (edgeAt s i).2.1 := by
  unfold endNodes
  rw [List.mem_flatMap]
  constructor
  · rintro ⟨i, hi, hx⟩
    rcases List.mem_cons.mp hx with h | h
    · exact ⟨i, hi, Or.inl h⟩
    · exact ⟨i, hi, Or.inr (by simpa using h)⟩
  · rintro ⟨i, hi, hx | hx⟩
    · exact ⟨i, hi, by rw [hx]; simp⟩
    · exact ⟨i, hi, by rw [hx]; simp⟩

theorem endNodes_sum (s : DState) (M : List Nat) :
    ((endNodes s M).map (uAt s)).sum
      = (M.map (fun i => uAt s (edgeAt s i).1 + uAt s (edgeAt s i).2.1)).sum := by
  induction M with
  | nil => rfl
  | cons i rest ih =>
    show ((([(edgeAt s i).1, (edgeAt s i).2.1] ++ endNodes s rest).map (uAt s)).sum) = _
    rw [List.map_append, List.sum_append, ih]
    simp

theorem endNodes_length (s : DState) (M : List Nat) :
    (endNodes s M).length = 2 * M.length := by
  induction M with
  | nil => rfl
  | cons i rest ih =>
    show ([(edgeAt s i).1, (edgeAt s i).2.1] ++ endNodes s rest).length = _
    rw [List.length_append, ih]
    simp
    omega

theorem endNodes_nodup (s : DState) (M : List Nat)
    (hpw : M.Pairwise (edgesDisjointP s))
    (hself : ∀ i ∈ M, (edgeAt s i).1 ≠ (edgeAt s i).2.1) :
    (endNodes s M).Nodup := by
  induction M with
  | nil => exact List.nodup_nil
  | cons i rest ih =>
    have hpw' := List.pairwise_cons.mp hpw
    have hnd := ih hpw'.2 (fun j hj => hself j (List.mem_cons_of_mem i hj))
    show ((edgeAt s i).1 :: (edgeAt s i).2.1 :: endNodes s rest).Nodup
    rw [List.nodup_cons, List.nodup_cons]
    refine ⟨?_, ?_, hnd⟩
    · intro hmem
      rcases List.mem_cons.mp hmem with h | h
      · exact hself i (List.mem_cons_self i rest) h
      · obtain ⟨j, hj, hx⟩ := mem_endNodes.mp h
        obtain ⟨d1, d2, _, _⟩ := hpw'.1 j hj
        rcases hx with hx | hx
        · exact d1 hx
        · exact d2 hx
    · intro hmem
      obtain ⟨j, hj, hx⟩ := mem_endNodes.mp hmem
      obtain ⟨_, _, d3, d4⟩ := hpw'.1 j hj
      rcases hx with hx | hx
      · exact d3 hx
      · exact d4 hx

theorem sum_nodup_le (l l' : List Nat) (f : Nat → Int) (hnd : l.Nodup)
    (hnd' : l'.Nodup) (hsub : ∀ x ∈ l, x ∈ l') (hf : ∀ x ∈ l', 0 ≤ f x) :
    (l.map f).sum ≤ (l'.map f).sum := by
  rw [← List.sum_toFinset f hnd, ← List.sum_toFinset f hnd']
  refine Finset.sum_le_sum_of_subset_of_nonneg ?_ ?_
  · intro x hx
    rw [List.mem_toFinset] at hx ⊢
    exact hsub x hx
  · intro x hx _
    rw [List.mem_toFinset] at hx
    exact hf x hx

theorem sum_nodup_eq (l l' : List Nat) (f : Nat → Int) (hnd : l.Nodup)
    (hnd' : l'.Nodup) (hsub : ∀ x ∈ l, x ∈ l')
    (hf0 : ∀ x ∈ l', x ∉ l → f x = 0) :
    (l.map f).sum = (l'.map f).sum := by
  rw [← List.sum_toFinset f hnd, ← List.sum_toFinset f hnd']
  refine Finset.sum_subset ?_ ?_
  · intro x hx
    rw [List.mem_toFinset] at hx ⊢
    exact hsub x hx
  · intro x hx hnx
    rw [List.mem_toFinset] at hx hnx
    exact hf0 x hx hnx

theorem two_mem_length {l : List Nat} {a b : Nat} (ha : a ∈ l) (hb : b ∈ l)
    (hab : a ≠ b) : 2 ≤ l.length := by
  cases l with
  | nil => cases ha
  | cons x rest =>
    cases rest with
    | nil =>
      have h1 : a = x := by simpa using ha
      have h2 : b = x := by simpa using hb
      exact absurd (h1.trans h2.symm) hab
    | cons y rest' => simp

theorem double_count_le (s : DState) (M : List Nat) (B : Blossom)
    (hpw : M.Pairwise (edgesDisjointP s))
    (hself : ∀ i ∈ M, (edgeAt s i).1 ≠ (edgeAt s i).2.1) :
    2 * ((M.filter (fun i => decide ((edgeAt s i).1 ∈ B.members)
      && decide ((edgeAt s i).2.1 ∈ B.members))).length) ≤ B.members.length := by
  have hsublist := List.filter_sublist
    (p := fun i => decide ((edgeAt s i).1 ∈ B.members)
      && decide ((edgeAt s i).2.1 ∈ B.members)) M
  have hpwf := hpw.sublist hsublist
  have hselff : ∀ i ∈ M.filter (fun i => decide ((edgeAt s i).1 ∈ B.members)
      && decide ((edgeAt s i).2.1 ∈ B.members)),
      (edgeAt s i).1 ≠ (edgeAt s i).2.1 :=
    fun i hi => hself i (List.mem_of_mem_filter hi)
  have hnd := endNodes_nodup s _ hpwf hselff
  have hsub : ∀ x ∈ endNodes s (M.filter (fun i => decide ((edgeAt s i).1 ∈ B.members)
      && decide ((edgeAt s i).2.1 ∈ B.members))), x ∈ B.members := by
    intro x hx
    obtain ⟨i, hi, hcase⟩ := mem_endNodes.mp hx
    obtain ⟨_, hp⟩ := List.mem_filter.mp hi
    rcases Bool.and_eq_true_iff.mp hp with ⟨h1, h2⟩
    rw [decide_eq_true_eq] at h1 h2
    rcases hcase with rfl | rfl
    · exact h1
    · exact h2
  have hlen := endNodes_length s (M.filter (fun i => decide ((edgeAt s i).1 ∈ B.members)
      && decide ((edgeAt s i).2.1 ∈ B.members)))
  have hcard1 : (endNodes s (M.filter (fun i => decide ((edgeAt s i).1 ∈ B.members)
      && decide ((edgeAt s i).2.1 ∈ B.members)))).toFinset.card
      = (endNodes s (M.filter (fun i => decide ((edgeAt s i).1 ∈ B.members)
      && decide ((edgeAt s i).2.1 ∈ B.members)))).length :=
    List.toFinset_card_of_nodup hnd
  have hcard2 : (endNodes s (M.filter (fun i => decide ((edgeAt s i).1 ∈ B.members)
      && decide ((edgeAt s i).2.1 ∈ B.members)))).toFinset.card
      ≤ B.members.toFinset.card := by
    refine Finset.card_le_card ?_
    intro x hx
    rw [List.mem_toFinset] at hx ⊢
    exact hsub x hx
  have hcard3 := List.toFinset_card_le B.members
  omega

theorem zmul_count_le (s : DState) (hz : ZNonneg s) (M : List Nat) (B : Blossom)
    (hB : B ∈ s.blossoms) (hpw : M.Pairwise (edgesDisjointP s))
    (hself : ∀ i ∈ M, (edgeAt s i).1 ≠ (edgeAt s i).2.1) :
    B.z * (((M.filter (fun i => decide ((edgeAt s i).1 ∈ B.members)
      && decide ((edgeAt s i).2.1 ∈ B.members))).length : Nat) : Int)
      ≤ B.z * ((B.members.length / 2 : Nat) : Int) := by
  have hdc := double_count_le s M B hpw hself
  have hcd : (M.filter (fun i => decide ((edgeAt s i).1 ∈ B.members)
      && decide ((edgeAt s i).2.1 ∈ B.members))).length ≤ B.members.length / 2 := by
    rw [Nat.le_div_iff_mul_le (by norm_num)]
    omega
  by_cases hlen : 2 ≤ B.members.length
  · exact mul_le_mul_of_nonneg_left (Int.ofNat_le.mpr hcd) (hz B hB hlen)
  · have hc0 : (M.filter (fun i => decide ((edgeAt s i).1 ∈ B.members)
        && decide ((edgeAt s i).2.1 ∈ B.members))).length = 0 := by omega
    have hf0 : B.members.length / 2 = 0 := by omega
    rw [hc0, hf0]

theorem weightOf_le_dualObj (s : DState) (hwf : WFState s) (hdf : DualFeasible s)
    (hu : UNonneg s) (hz : ZNonneg s) (M : List Nat)
    (hMb : ∀ i ∈ M, i < s.edges.length)
    (hpw : M.Pairwise (edgesDisjointP s)) :
    weightOfIds s M ≤ dualObj s := by
  have hself : ∀ i ∈ M, (edgeAt s i).1 ≠ (edgeAt s i).2.1 :=
    fun i hi => (hwf.2.2.1 _ (edgeAt_mem s i (hMb i hi))).2.2.1
  have h1 : weightOfIds s M ≤
      (M.map (fun i => uAt s (edgeAt s i).1 + uAt s (edgeAt s i).2.1)).sum
      + (M.map (fun i => zPairSum s (edgeAt s i).1 (edgeAt s i).2.1)).sum := by
    rw [← sum_map_add]
    refine List.sum_le_sum ?_
    intro i hi
    have hsl := hdf i (hMb i hi)
    unfold edge_slack at hsl
    omega
  have h2 : (M.map (fun i => uAt s (edgeAt s i).1 + uAt s (edgeAt s i).2.1)).sum
      ≤ ((List.range s.n).map (uAt s)).sum := by
    rw [← endNodes_sum]
    refine sum_nodup_le _ _ _ (endNodes_nodup s M hpw hself)
      (List.nodup_range s.n) ?_ ?_
    · intro x hx
      obtain ⟨i, hi, hcase⟩ := mem_endNodes.mp hx
      have hmem := hwf.2.2.1 _ (edgeAt_mem s i (hMb i hi))
      rw [List.mem_range]
      rcases hcase with rfl | rfl
      · exact hmem.1
      · exact hmem.2.1
    · intro x hx
      exact hu x (List.mem_range.mp hx)
  have h3 : (M.map (fun i => zPairSum s (edgeAt s i).1 (edgeAt s i).2.1)).sum
      ≤ (s.blossoms.map (fun B => B.z * ((B.members.length / 2 : Nat) : Int))).sum := by
    have hrw : ∀ i ∈ M, (fun i => zPairSum s (edgeAt s i).1 (edgeAt s i).2.1) i
        = (fun i => (s.blossoms.map (fun B =>
            if (decide ((edgeAt s i).1 ∈ B.members)
              && decide ((edgeAt s i).2.1 ∈ B.members)) = true then B.z else 0)).sum) i := by
      intro i hi
      show zPairSum s (edgeAt s i).1 (edgeAt s i).2.1 = _
      rw [zPairSum_eq]
      congr 1
      refine List.map_congr_left (fun B hB => ?_)
      exact if_and_decide _ _ _
    rw [List.map_congr_left hrw, sum_sum_comm]
    refine List.sum_le_sum ?_
    intro B hB
    rw [sum_if_const M (fun i => decide ((edgeAt s i).1 ∈ B.members)
      && decide ((edgeAt s i).2.1 ∈ B.members)) B.z]
    exact zmul_count_le s hz M B hB hpw hself
  have hfinal := le_trans h1 (add_le_add h2 h3)
  unfold dualObj
  exact hfinal

theorem mem_matchedIds {s : DState} {i : Nat} :
    i ∈ matchedIds s ↔ i < s.edges.length ∧ matchedAt s i = true := by
  unfold matchedIds
  rw [List.mem_filter, List.mem_range]

theorem matchedIds_nodup (s : DState) : (matchedIds s).Nodup :=
  (List.nodup_range _).filter _

theorem matchedIds_pairwise (s : DState) (hvm : ValidMatching s) :
    (matchedIds s).Pairwise (edgesDisjointP s) := by
  have hnd : (matchedIds s).Pairwise (fun a b => a ≠ b) := matchedIds_nodup s
  refine hnd.imp_of_mem ?_
  intro a b ha hb hne
  obtain ⟨hal, ham⟩ := mem_matchedIds.mp ha
  obtain ⟨hbl, hbm⟩ := mem_matchedIds.mp hb
  exact hvm a b hal hbl hne ham hbm

theorem totalWeight_eq_dualObj (s : DState) (hinv : DriverInv s)
    (hc1 : ∀ v, v < s.n → getMatching s v = none → uAt s v = 0)
    (hc2 : ∀ B ∈ s.blossoms, B.z ≠ 0 →
      (matchedInside s B).length = B.members.length / 2) :
    totalWeight s = dualObj s := by
  obtain ⟨hwf, hdf, hmt, hu, hz, hok, hvm⟩ := hinv
  have hMb : ∀ i ∈ matchedIds s, i < s.edges.length :=
    fun i hi => (mem_matchedIds.mp hi).1
  have hpw := matchedIds_pairwise s hvm
  have hself : ∀ i ∈ matchedIds s, (edgeAt s i).1 ≠ (edgeAt s i).2.1 :=
    fun i hi => (hwf.2.2.1 _ (edgeAt_mem s i (hMb i hi))).2.2.1
  have h1 : totalWeight s =
      ((matchedIds s).map
        (fun i => uAt s (edgeAt s i).1 + uAt s (edgeAt s i).2.1)).sum
      + ((matchedIds s).map
        (fun i => zPairSum s (edgeAt s i).1 (edgeAt s i).2.1)).sum := by
    rw [← sum_map_add]
    unfold totalWeight weightOfIds
    refine congrArg List.sum (List.map_congr_left (fun i hi => ?_))
    have hti := hmt i (hMb i hi) (mem_matchedIds.mp hi).2
    unfold edge_slack at hti
    omega
  have h2 : ((matchedIds s).map
      (fun i => uAt s (edgeAt s i).1 + uAt s (edgeAt s i).2.1)).sum
      = ((List.range s.n).map (uAt s)).sum := by
    rw [← endNodes_sum]
    refine sum_nodup_eq _ _ _ (endNodes_nodup s _ hpw hself)
      (List.nodup_range s.n) ?_ ?_
    · intro x hx
      obtain ⟨i, hi, hcase⟩ := mem_endNodes.mp hx
      have hmem := hwf.2.2.1 _ (edgeAt_mem s i (hMb i hi))
      rw [List.mem_range]
      rcases hcase with rfl | rfl
      · exact hmem.1
      · exact hmem.2.1
    · intro x hx hnx
      have hnone : matchedEdgeOf s x = none := by
        rw [matchedEdgeOf_eq_none_iff]
        intro i hi hm
        constructor
        · intro hEq
          exact hnx (mem_endNodes.mpr ⟨i, mem_matchedIds.mpr ⟨hi, hm⟩, Or.inl hEq⟩)
        · intro hEq
          exact hnx (mem_endNodes.mpr ⟨i, mem_matchedIds.mpr ⟨hi, hm⟩, Or.inr hEq⟩)
      have hgm : getMatching s x = none := by
        unfold getMatching
        rw [hnone]
      exact hc1 x (List.mem_range.mp hx) hgm
  have h3 : ((matchedIds s).map
      (fun i => zPairSum s (edgeAt s i).1 (edgeAt s i).2.1)).sum
      = (s.blossoms.map (fun B => B.z * ((B.members.length / 2 : Nat) : Int))).sum := by
    have hrw : ∀ i ∈ matchedIds s,
        (fun i => zPairSum s (edgeAt s i).1 (edgeAt s i).2.1) i
        = (fun i => (s.blossoms.map (fun B =>
            if (decide ((edgeAt s i).1 ∈ B.members)
              && decide ((edgeAt s i).2.1 ∈ B.members)) = true
            then B.z else 0)).sum) i := by
      intro i hi
      show zPairSum s (edgeAt s i).1 (edgeAt s i).2.1 = _
      rw [zPairSum_eq]
      congr 1
      refine List.map_congr_left (fun B hB => ?_)
      exact if_and_decide _ _ _
    rw [List.map_congr_left hrw, sum_sum_comm]
    refine congrArg List.sum (List.map_congr_left (fun B hB => ?_))
    rw [sum_if_const (matchedIds s) (fun i => decide ((edgeAt s i).1 ∈ B.members)
      && decide ((edgeAt s i).2.1 ∈ B.members)) B.z]
    show B.z * ((matchedInside s B).length : Int)
      = B.z * ((B.members.length / 2 : Nat) : Int)
    by_cases hz0 : B.z = 0
    · rw [hz0]
      ring
    · rw [hc2 B hB hz0]
  rw [h1, h2, h3]
  rfl

theorem edgesDisjointB_true_iff (e f : Nat × Nat × Int) :
    edgesDisjointB e f = true ↔
      (e.1 ≠ f.1 ∧ e.1 ≠ f.2.1 ∧ e.2.1 ≠ f.1 ∧ e.2.1 ≠ f.2.1) := by
  unfold edgesDisjointB
  simp only [Bool.and_eq_true, decide_eq_true_eq]
  tauto

theorem pairwiseDisjointB_iff (g : WGraph) (M : List Nat) :
    pairwiseDisjointB g M = true ↔
      M.Pairwise (fun i j => edgesDisjointB (gEdgeAt g i) (gEdgeAt g j) = true) := by
  induction M with
  | nil => simp [pairwiseDisjointB]
  | cons i rest ih =>
    rw [pairwiseDisjointB, Bool.and_eq_true, ih, List.pairwise_cons,
      List.all_eq_true]

theorem Reachable_frame {g : WGraph} {s : DState} (hr : Reachable g s) :
    s.edges = g.edges ∧ s.n = g.n := by
  induction hr with
  | init => exact ⟨rfl, rfl⟩
  | step hr hstep ih =>
    cases hstep with
    | adjust d hd => exact ih
    | relabel bl' hsame hok hwf => exact ih
    | augment m' hlen ht hv hok => exact ih
    | contract bl' B hz hproj hwf hok => exact ih
    | expand bl' B hz hproj hwf hok => exact ih

theorem optimal_of_cs (g : WGraph) (s : DState) (hg : GraphWF g)
    (hr : Reachable g s)
    (hc1 : ∀ v, v < s.n → getMatching s v = none → uAt s v = 0)
    (hc2 : ∀ B ∈ s.blossoms, B.z ≠ 0 →
      (matchedInside s B).length = B.members.length / 2) :
    totalWeight s = refOptimum g := by
  have hinv := DriverInv_reachable hg hr
  obtain ⟨hedges, hn⟩ := Reachable_frame hr
  have hEdgeEq : ∀ i, edgeAt s i = gEdgeAt g i := by
    intro i
    unfold edgeAt gEdgeAt
    rw [hedges]
  have hLenEq : s.edges.length = g.edges.length := by rw [hedges]
  have hWeightEq : ∀ M : List Nat, gWeight g M = weightOfIds s M := by
    intro M
    unfold gWeight weightOfIds
    refine congrArg List.sum (List.map_congr_left (fun i _ => ?_))
    rw [hEdgeEq]
  have hdual := totalWeight_eq_dualObj s hinv hc1 hc2
  have hvm := hinv.2.2.2.2.2.2
  have hvalidM : validListB g (matchedIds s) = true := by
    unfold validListB
    rw [Bool.and_eq_true, List.all_eq_true, pairwiseDisjointB_iff]
    constructor
    · intro i hi
      rw [decide_eq_true_eq, ← hLenEq]
      exact (mem_matchedIds.mp hi).1
    · refine (matchedIds_pairwise s hvm).imp_of_mem ?_
      intro a b ha hb hd
      rw [edgesDisjointB_true_iff, ← hEdgeEq, ← hEdgeEq]
      exact hd
  have hmemM : matchedIds s ∈ allMatchings g := by
    unfold allMatchings
    rw [List.mem_filter]
    refine ⟨?_, hvalidM⟩
    rw [List.mem_sublists]
    have hsub : List.Sublist (matchedIds s) (List.range s.edges.length) :=
      List.filter_sublist _
    rw [hLenEq] at hsub
    exact hsub
  have hwmem : gWeight g (matchedIds s) ∈ (allMatchings g).map (gWeight g) :=
    List.mem_map_of_mem _ hmemM
  obtain ⟨m, hm⟩ := maxOpt_isSome_of_mem hwmem
  have hle1 : gWeight g (matchedIds s) ≤ m := le_maxOpt_of_mem hm hwmem
  have hle2 : m ≤ totalWeight s := by
    obtain ⟨M0, hM0, hM0w⟩ := List.mem_map.mp (maxOpt_mem hm)
    unfold allMatchings at hM0
    rw [List.mem_filter] at hM0
    have hval := hM0.2
    unfold validListB at hval
    rw [Bool.and_eq_true, List.all_eq_true, pairwiseDisjointB_iff] at hval
    have hMb : ∀ i ∈ M0, i < s.edges.length := by
      intro i hi
      have := hval.1 i hi
      rw [decide_eq_true_eq] at this
      omega
    have hpw : M0.Pairwise (edgesDisjointP s) := by
      refine hval.2.imp_of_mem ?_
      intro a b ha hb hd
      rw [edgesDisjointB_true_iff, ← hEdgeEq, ← hEdgeEq] at hd
      exact hd
    have := weightOf_le_dualObj s hinv.1 hinv.2.1 hinv.2.2.2.1 hinv.2.2.2.2.1
      M0 hMb hpw
    rw [← hM0w, hWeightEq, hdual]
    exact this
  have hmw : m = totalWeight s := by
    rw [hWeightEq] at hle1
    have hle2' : m ≤ weightOfIds s (matchedIds s) := hle2
    unfold totalWeight
    omega
  unfold refOptimum
  rw [hm, hmw]
  rfl

theorem matchedIds_adjust (s : DState) (d : Int) :
    matchedIds (adjust_by_delta s d) = matchedIds s := rfl

theorem matchedEdgeOf_adjust (s : DState) (d : Int) (v : Nat) :
    matchedEdgeOf (adjust_by_delta s d) v = matchedEdgeOf s v := rfl

theorem ExposedEven_adjust (s : DState) (d : Int) (h : ExposedEven s) :
    ExposedEven (adjust_by_delta s d) := by
  intro v hv hum
  have hv' : v < s.n := hv
  have hum' : NodeUnmatched s v := hum
  rw [nodeLabel_adjust]
  exact h v hv' hum'

theorem ExposedMin_adjust (s : DState) {d : Int} (hwf : WFState s)
    (hdf : DualFeasible s) (hu : UNonneg s) (hz : ZNonneg s)
    (hee : ExposedEven s) (hem : ExposedMin s) (hd : calc_delta s = some d) :
    ExposedMin (adjust_by_delta s d) := by
  intro w hw hum v hv
  have hw' : w < s.n := hw
  have hv' : v < s.n := hv
  have hum' : NodeUnmatched s w := hum
  have hweven := hee w hw' hum'
  have hd0 := calc_delta_nonneg s hwf hdf hu hz hd
  have hle := hem w hw' hum' v hv'
  rw [uAt_adjust_duVal s d w hw', uAt_adjust_duVal s d v hv', hweven]
  cases hL : nodeLabel s v <;> simp only [duVal] <;> omega

theorem BlossomsFull_adjust (s : DState) (d : Int) (h : BlossomsFull s) :
    BlossomsFull (adjust_by_delta s d) := by
  intro B' hB'
  obtain ⟨B, hB, rfl⟩ := List.mem_map.mp hB'
  have hmi : matchedInside (adjust_by_delta s d) (adjustBlossom d B)
      = matchedInside s B := by
    unfold matchedInside
    simp only [matchedIds_adjust, edgeAt_adjust, adjustBlossom_members]
  rw [hmi, adjustBlossom_members]
  exact h B hB

theorem ExposedMin_blossoms (s : DState) (bl' : List Blossom)
    (h : ExposedMin s) : ExposedMin { s with blossoms := bl' } := by
  intro w hw hum v hv
  exact h w hw hum v hv

theorem ExposedMin_matching (s : DState) (m' : List Bool)
    (hmono : ∀ v, NodeUnmatched { s with is_in_matching := m' } v →
      NodeUnmatched s v)
    (h : ExposedMin s) : ExposedMin { s with is_in_matching := m' } := by
  intro w hw hum v hv
  exact h w hw (hmono w hum) v hv

theorem ExposedEven_augment (s : DState) (m' : List Bool)
    (hmono : ∀ v, NodeUnmatched { s with is_in_matching := m' } v →
      NodeUnmatched s v)
    (h : ExposedEven s) : ExposedEven { s with is_in_matching := m' } := by
  intro v hv hum
  exact h v hv (hmono v hum)

theorem BlossomsFull_relabel (s : DState) (bl' : List Blossom)
    (hsame : SameButLabels s.blossoms bl') (h : BlossomsFull s) :
    BlossomsFull { s with blossoms := bl' } := by
  intro B' hB'
  obtain ⟨j, hj', hEq⟩ := mem_iff_getD.mp hB'
  have hj : j < s.blossoms.length := by
    rw [← hsame.1]
    exact hj'
  obtain ⟨hm, _, _, _⟩ := hsame.2 j hj
  have hC : s.blossoms.getD j default ∈ s.blossoms := mem_of_getD hj
  have hmm : B'.members = (s.blossoms.getD j default).members := by
    rw [← hEq]
    exact hm
  have hmi : matchedInside { s with blossoms := bl' } B'
      = matchedInside s (s.blossoms.getD j default) := by
    unfold matchedInside
    simp only [hmm]
    rfl
  rw [hmi, hmm]
  exact h _ hC

theorem BlossomsFull_expand (s : DState) (bl' : List Blossom) (B : Blossom)
    (hproj : s.blossoms.map projB = projB B :: bl'.map projB)
    (h : BlossomsFull s) : BlossomsFull { s with blossoms := bl' } := by
  intro B' hB'
  have hpm : projB B' ∈ s.blossoms.map projB := by
    rw [hproj]
    exact List.mem_cons_of_mem _ (List.mem_map_of_mem projB hB')
  obtain ⟨C, hC, hCEq⟩ := List.mem_map.mp hpm
  have h1 : C.members = B'.members := congrArg Prod.fst hCEq
  have hmi : matchedInside { s with blossoms := bl' } B' = matchedInside s C := by
    unfold matchedInside
    simp only [← h1]
    rfl
  rw [hmi, ← h1]
  exact h C hC

theorem DStepT_toDStep {s s' : DState} (h : DStepT s s') : DStep s s' := by
  cases h with
  | adjust d hd => exact DStep.adjust s d hd
  | relabel bl' hsame hok hwf hexp => exact DStep.relabel s bl' hsame hok hwf
  | augment m' hlen htight hvalid hok hmono hfull =>
    exact DStep.augment s m' hlen htight hvalid hok
  | contract bl' B hz hproj hwf hok hexp hfull =>
    exact DStep.contract s bl' B hz hproj hwf hok
  | expand bl' B hz hproj hwf hok hexp =>
    exact DStep.expand s bl' B hz hproj hwf hok

theorem ReachableT_toReachable {g : WGraph} {s : DState}
    (h : ReachableT g s) : Reachable g s := by
  induction h with
  | init => exact Reachable.init
  | step hr hstep ih => exact Reachable.step ih (DStepT_toDStep hstep)

theorem DriverInvT_step {s s' : DState} (hinv : DriverInv s)
    (hT : ExposedEven s ∧ ExposedMin s ∧ BlossomsFull s) (hstep : DStepT s s') :
    ExposedEven s' ∧ ExposedMin s' ∧ BlossomsFull s' := by
  obtain ⟨hee, hem, hbf⟩ := hT
  obtain ⟨hwf, hdf, hmt, hu, hz, hok, hvm⟩ := hinv
  cases hstep with
  | adjust d hd =>
    exact ⟨ExposedEven_adjust s d hee,
      ExposedMin_adjust s hwf hdf hu hz hee hem hd, BlossomsFull_adjust s d hbf⟩
  | relabel bl' hsame hok2 hwf2 hexp =>
    exact ⟨hexp, ExposedMin_blossoms s bl' hem,
      BlossomsFull_relabel s bl' hsame hbf⟩
  | augment m' hlen htight hvalid hok2 hmono hfull =>
    exact ⟨ExposedEven_augment s m' hmono hee,
      ExposedMin_matching s m' hmono hem, hfull⟩
  | contract bl' B hz2 hproj hwf2 hok2 hexp hfull =>
    exact ⟨hexp, ExposedMin_blossoms s bl' hem, hfull⟩
  | expand bl' B hz2 hproj hwf2 hok2 hexp =>
    exact ⟨hexp, ExposedMin_blossoms s bl' hem,
      BlossomsFull_expand s bl' B hproj hbf⟩

theorem matchedIds_init (g : WGraph) : matchedIds (initState g) = [] := by
  unfold matchedIds
  rw [List.filter_congr (fun i _ => matchedAt_init g i)]
  exact List.filter_false _

theorem nodeLabel_init (g : WGraph) (hg : GraphWF g) (v : Nat) (hv : v < g.n) :
    nodeLabel (initState g) v = .even := by
  have hwf := (DriverInv_init g hg).1
  obtain ⟨i, hi⟩ := get_blossom_isSome (initState g) hwf v hv
  rw [nodeLabel_some hi]
  obtain ⟨hlen, _, _⟩ := get_blossom_mem_spec _ hi
  obtain ⟨w, hw, hEq⟩ := mem_init_blossoms (blossomAt_mem (initState g) i hlen)
  rw [hEq]
  rfl

theorem DriverInvT_init (g : WGraph) (hg : GraphWF g) :
    ExposedEven (initState g) ∧ ExposedMin (initState g) ∧
      BlossomsFull (initState g) := by
  refine ⟨?_, ?_, ?_⟩
  · intro v hv _
    exact nodeLabel_init g hg v hv
  · intro w hw _ v hv
    rw [uAt_init g w hw, uAt_init g v hv]
  · intro B hB
    obtain ⟨v, hv, rfl⟩ := mem_init_blossoms hB
    unfold matchedInside
    rw [matchedIds_init]
    simp [trivialBlossom]

theorem DriverInvT_reachable {g : WGraph} {s : DState} (hg : GraphWF g)
    (hr : ReachableT g s) :
    ExposedEven s ∧ ExposedMin s ∧ BlossomsFull s := by
  induction hr with
  | init => exact DriverInvT_init g hg
  | step hr hstep ih =>
    exact DriverInvT_step
      (DriverInv_reachable hg (ReachableT_toReachable hr)) ih hstep

theorem isEven_eq_even {l : BlossomLabel} (h : l.isEven = true) : l = .even := by
  cases l with
  | even => rfl
  | odd => cases h
  | free => cases h

theorem terminal_adjust_optimal (g : WGraph) (s : DState) (d : Int)
    (hg : GraphWF g) (hr : ReachableT g s)
    (hd : calc_delta s = some d) (hd1 : calc_delta1 s = some d) :
    totalWeight (adjust_by_delta s d) = refOptimum g := by
  have hrT' : ReachableT g (adjust_by_delta s d) :=
    ReachableT.step hr (DStepT.adjust s d hd)
  have hrR' := ReachableT_toReachable hrT'
  have hinv' := DriverInv_reachable hg hrR'
  obtain ⟨hee, hem, hbf⟩ := DriverInvT_reachable hg hr
  obtain ⟨hee', hem', hbf'⟩ := DriverInvT_reachable hg hrT'
  obtain ⟨v0, hv0f, huv0⟩ := List.mem_map.mp (minOpt_mem hd1)
  obtain ⟨hv0r, hv0e⟩ := List.mem_filter.mp hv0f
  have hv0n : v0 < s.n := List.mem_range.mp hv0r
  have hv0even : nodeLabel s v0 = .even := isEven_eq_even hv0e
  have hc1 : ∀ v, v < (adjust_by_delta s d).n →
      getMatching (adjust_by_delta s d) v = none →
      uAt (adjust_by_delta s d) v = 0 := by
    intro v hv hgm
    have hvn : v < s.n := hv
    have hum : NodeUnmatched s v := by
      unfold NodeUnmatched
      cases hme : matchedEdgeOf s v with
      | none => rfl
      | some i =>
        exfalso
        have hme' : matchedEdgeOf (adjust_by_delta s d) v = some i := hme
        unfold getMatching at hgm
        rw [hme'] at hgm
        cases hgm
    have hveven := hee v hvn hum
    have h1 := hem v hvn hum v0 hv0n
    have h2 : uAt (adjust_by_delta s d) v = uAt s v - d := by
      rw [uAt_adjust_duVal s d v hvn, hveven]
      simp only [duVal]
      ring
    have h3 := hinv'.2.2.2.1 v hv
    omega
  have hc2 : ∀ B ∈ (adjust_by_delta s d).blossoms, B.z ≠ 0 →
      (matchedInside (adjust_by_delta s d) B).length = B.members.length / 2 :=
    fun B hB _ => hbf' B hB
  exact optimal_of_cs g (adjust_by_delta s d) hg hrR' hc1 hc2

/-- C1: on every input graph with at most 20 nodes, a terminated run of
    each of the three weighted variants (Edmonds, Gabow, Micali-Gabow,
    which share driver D and differ only in how tight edges are found)
    returns a matching whose total weight equals the reference LP
    optimum; per the spec exit condition a weighted run terminates
    exactly when the final dual adjustment picks delta = delta1, so the
    terminated state is adjust_by_delta s d with delta1 the minimum.
    In particular all three weights agree, although the matched edge
    sets may differ. -/
theorem weighted_variants_match_lp_optimum (g : WGraph)
    (s1 s2 s3 : DState) (d1 d2 d3 : Int) (hg : GraphWF g) (hn : g.n ≤ 20)
    (h1 : ReachableT g s1) (e1 : calc_delta s1 = some d1)
    (f1 : calc_delta1 s1 = some d1)
    (h2 : ReachableT g s2) (e2 : calc_delta s2 = some d2)
    (f2 : calc_delta1 s2 = some d2)
    (h3 : ReachableT g s3) (e3 : calc_delta s3 = some d3)
    (f3 : calc_delta1 s3 = some d3) :
    totalWeight (adjust_by_delta s1 d1) = refOptimum g ∧
    totalWeight (adjust_by_delta s2 d2) = refOptimum g ∧
    totalWeight (adjust_by_delta s3 d3) = refOptimum g ∧
    totalWeight (adjust_by_delta s1 d1) = totalWeight (adjust_by_delta s2 d2) ∧
    totalWeight (adjust_by_delta s2 d2) = totalWeight (adjust_by_delta s3 d3) := by
  have o1 := terminal_adjust_optimal g s1 d1 hg h1 e1 f1
  have o2 := terminal_adjust_optimal g s2 d2 hg h2 e2 f2
  have o3 := terminal_adjust_optimal g s3 d3 hg h3 e3 f3
  exact ⟨o1, o2, o3, o1.trans o2.symm, o2.trans o3.symm⟩

theorem weighted_variants_match_lp_optimum_witness :
    totalWeight (adjust_by_delta (initState ⟨1, []⟩) 0) = refOptimum ⟨1, []⟩ ∧
    totalWeight (adjust_by_delta (initState ⟨1, []⟩) 0) = refOptimum ⟨1, []⟩ ∧
    totalWeight (adjust_by_delta (initState ⟨1, []⟩) 0) = refOptimum ⟨1, []⟩ ∧
    totalWeight (adjust_by_delta (initState ⟨1, []⟩) 0)
      = totalWeight (adjust_by_delta (initState ⟨1, []⟩) 0) ∧
    totalWeight (adjust_by_delta (initState ⟨1, []⟩) 0)
      = totalWeight (adjust_by_delta (initState ⟨1, []⟩) 0) :=
  weighted_variants_match_lp_optimum ⟨1, []⟩ (initState ⟨1, []⟩)
    (initState ⟨1, []⟩) (initState ⟨1, []⟩) 0 0 0
    (by unfold GraphWF; decide) (by decide)
    ReachableT.init (by decide) (by decide)
    ReachableT.init (by decide) (by decide)
    ReachableT.init (by decide) (by decide)

theorem tieBreakStep_det {s t1 t2 : DState} (h1 : TieBreakStep s t1)
    (h2 : TieBreakStep s t2) : t1 = t2 := by
  cases h1 with
  | mk e1 hu1 hm1 =>
    cases h2 with
    | mk e2 hu2 hm2 =>
      have hid : e1.id = e2.id := le_antisymm (hm1 e2 hu2) (hm2 e1 hu1)
      have hE : e1 = e2 := by
        obtain ⟨_, h1u, h1v, _, _⟩ := hu1
        obtain ⟨_, h2u, h2v, _, _⟩ := hu2
        rw [hid] at h1u h1v
        cases e1 with
        | mk u1 v1 i1 =>
          cases e2 with
          | mk u2 v2 i2 =>
            simp only at hid h1u h1v h2u h2v
            rw [hid, h1u.symm.trans h2u, h1v.symm.trans h2v]
      rw [hE]

theorem iterTie_det : ∀ (k1 : Nat) {k2 : Nat} {s t1 t2 : DState},
    IterTie k1 s t1 → ¬(∃ r, TieBreakStep t1 r) →
    IterTie k2 s t2 → ¬(∃ r, TieBreakStep t2 r) → t1 = t2 := by
  intro k1
  induction k1 with
  | zero =>
    intro k2 s t1 t2 h1 hs1 h2 hs2
    cases h1
    cases h2 with
    | refl => rfl
    | step hst _ => exact absurd ⟨_, hst⟩ hs1
  | succ k1' ih =>
    intro k2 s t1 t2 h1 hs1 h2 hs2
    cases h1 with
    | step hst1 hrest1 =>
      cases h2 with
      | refl => exact absurd ⟨_, hst1⟩ hs2
      | step hst2 hrest2 =>
        have hEq := tieBreakStep_det hst1 hst2
        rw [← hEq] at hrest2
        exact ih hrest1 hs1 hrest2 hs2

/-- C9: two complete terminated runs of the same weighted algorithm on
    the same graph produce matchings of equal total weight (each equals
    the reference optimum of that graph); and under the documented
    tie-break rule, which hands consider_edge the useful edge with the
    smallest id, the substage relation is deterministic: two complete
    tie-break runs from the same state reach the same final state and
    hence the identical matching. -/
theorem two_runs_same_weight (g : WGraph) (s1 s2 : DState) (d1 d2 : Int)
    (hg : GraphWF g)
    (h1 : ReachableT g s1) (e1 : calc_delta s1 = some d1)
    (f1 : calc_delta1 s1 = some d1)
    (h2 : ReachableT g s2) (e2 : calc_delta s2 = some d2)
    (f2 : calc_delta1 s2 = some d2) :
    totalWeight (adjust_by_delta s1 d1) = totalWeight (adjust_by_delta s2 d2) ∧
    (∀ (k1 k2 : Nat) (s t1 t2 : DState),
      IterTie k1 s t1 → ¬(∃ r, TieBreakStep t1 r) →
      IterTie k2 s t2 → ¬(∃ r, TieBreakStep t2 r) →
      t1 = t2 ∧ ∀ a, getMatching t1 a = getMatching t2 a) := by
  constructor
  · rw [terminal_adjust_optimal g s1 d1 hg h1 e1 f1,
      terminal_adjust_optimal g s2 d2 hg h2 e2 f2]
  · intro k1 k2 s t1 t2 ht1 hs1 ht2 hs2
    have hEq := iterTie_det k1 ht1 hs1 ht2 hs2
    exact ⟨hEq, fun a => by rw [hEq]⟩

theorem two_runs_same_weight_witness :
    totalWeight (adjust_by_delta (initState ⟨1, []⟩) 0)
      = totalWeight (adjust_by_delta (initState ⟨1, []⟩) 0) ∧
    (∀ (k1 k2 : Nat) (s t1 t2 : DState),
      IterTie k1 s t1 → ¬(∃ r, TieBreakStep t1 r) →
      IterTie k2 s t2 → ¬(∃ r, TieBreakStep t2 r) →
      t1 = t2 ∧ ∀ a, getMatching t1 a = getMatching t2 a) :=
  two_runs_same_weight ⟨1, []⟩ (initState ⟨1, []⟩) (initState ⟨1, []⟩) 0 0
    (by unfold GraphWF; decide)
    ReachableT.init (by decide) (by decide)
    ReachableT.init (by decide) (by decide)
